import Mathlib

/-!
# Verification of the `greentype` indexing / name-resolution / inference core

A shallow embedding, in Lean 4, of the core of the `green-type` structural
type-inference tool for Python (`src/greentype/core.py` and
`src/greentype/utils/`), together with theorems settling the frozen claims
about its specification.

Conventions of the embedding:

* Python strings are Lean `String`s; every string operation is implemented
  over `String.data` (`List Char`) so that it mirrors Python's character
  semantics (`str.split('.')`, slicing, `startswith`, `str.replace(old,new,1)`).
* Python sets and dicts of definitions use *Python* equality, which for all
  `Definition` objects in the source is equality of qualified names
  (`Definition.__eq__`/`__hash__`, core.py lines 717-724).  They are modelled
  by association lists / lists with explicitly qname-keyed insertion and
  membership, reproducing `set.add`'s keep-existing-element behaviour.
* Mutable analyzer state (`self.indexes`, `self._broken_modules`, the
  memoization caches) is threaded explicitly through a `State` record.
* Recursive procedures are written with an explicit `fuel` parameter; running
  out of fuel models non-termination (`Res.div`), and Python exceptions are
  modelled by `Res.thrown`.
-/

namespace GreenType

/-! ## String utilities (`src/greentype/utils/strings.py`)

All helpers work on `String.data` so that they coincide with CPython's
character-level behaviour. -/

/-- Python `s.startswith(p)`. -/
def pyStartsWith (s p : String) : Bool :=
  p.data.isPrefixOf s.data

/-- Python `s[n:]` (slicing past the end yields the empty string). -/
def pyDrop (s : String) (n : Nat) : String :=
  String.mk (s.data.drop n)

/-- Python `parts[-n:]` for a list (the whole list when `n ≥ len(parts)`). -/
def pyTakeLast {α : Type} (l : List α) (n : Nat) : List α :=
  l.drop (l.length - n)

/-- Helper of `splitDots`, on character lists. -/
def splitDotsAux : List Char → List String
  | [] => [""]
  | c :: cs =>
    if c = '.' then "" :: splitDotsAux cs
    else
      match splitDotsAux cs with
      | [] => [String.mk [c]]
      | s :: rest => String.mk (c :: s.data) :: rest

/-- Python `s.split('.')` (note: `"".split('.') == ['']`). -/
def splitDots (s : String) : List String :=
  splitDotsAux s.data

/-- Python `'.'.join(parts)`. -/
def joinDots : List String → String
  | [] => ""
  | [s] => s
  | s :: rest => s ++ "." ++ joinDots rest

/-- The descending loop of `qname_merge`: try overlap sizes `n, n-1, …, 1`. -/
def qnameMergeLoop (parts1 parts2 : List String) : Nat → Option (List String)
  | 0 => none
  | n + 1 =>
    if pyTakeLast parts1 (n + 1) = parts2.take (n + 1) then
      some (parts1 ++ parts2.drop (n + 1))
    else
      qnameMergeLoop parts1 parts2 n

/-- `utils.qname_merge(n1, n2)` (with the default `accept_disjoint=True`,
the only form `core.py` uses): append `n2` to `n1`, collapsing the longest
suffix of `n1` that is a prefix of `n2`. -/
def qname_merge (n1 n2 : String) : String :=
  let parts1 := splitDots n1
  let parts2 := splitDots n2
  if n1 = "" ∨ n2 = "" then (if n2 = "" then n1 else n2)
  else
    match qnameMergeLoop parts1 parts2 parts2.length with
    | some parts => joinDots parts
    | none => joinDots (parts1 ++ parts2)

/-- `utils.qname_head(name)`: the part after the last dot, `None` when empty. -/
def qname_head (name : String) : Option String :=
  let h := ((splitDots name).getLast?).getD ""
  if h = "" then none else some h

/-- `utils.qname_tail(name)`: the part before the last dot, `None` when empty. -/
def qname_tail (name : String) : Option String :=
  let t := joinDots (splitDots name).dropLast
  if t = "" then none else some t

/-- `utils.qname_qualified_by(name, qualifier)`:
`True` for an empty qualifier, else `name == qualifier or
name.startswith(qualifier + '.')`. -/
def qname_qualified_by (name qualifier : String) : Bool :=
  if qualifier = "" then true
  else name = qualifier || pyStartsWith name (qualifier ++ ".")

/-- `utils.qname_drop(name, qualifier)`: when `name` is qualified by a
non-empty `qualifier`, slice off `len(qualifier + '.')` characters, else
return `name` unchanged. -/
def qname_drop (name qualifier : String) : String :=
  if qname_qualified_by name qualifier ∧ qualifier ≠ "" then
    pyDrop name (qualifier.length + 1)
  else name

/-- Helper of `replaceFirst`: scan for the leftmost occurrence of `pat`. -/
def replaceFirstAux (rep pat : List Char) : List Char → List Char
  | [] => if pat = [] then rep else []
  | c :: cs =>
    if pat.isPrefixOf (c :: cs) then rep ++ (c :: cs).drop pat.length
    else c :: replaceFirstAux rep pat cs

/-- Python `s.replace(pat, rep, 1)`: replace the leftmost occurrence only
(an empty pattern inserts `rep` at the front, as in CPython). -/
def replaceFirst (s pat rep : String) : String :=
  String.mk (replaceFirstAux rep.data pat.data s.data)

/-! ## Association lists (Python `dict`) -/

/-- Python `d.get(k)` on an association list. -/
def alookup {κ β : Type} [DecidableEq κ] : List (κ × β) → κ → Option β
  | [], _ => none
  | (k', v') :: rest, k => if k' = k then some v' else alookup rest k

/-- Python `d[k] = v`: overwrite an existing binding, else append. -/
def ainsert {κ β : Type} [DecidableEq κ] : List (κ × β) → κ → β → List (κ × β)
  | [], k, v => [(k, v)]
  | (k', v') :: rest, k, v =>
    if k' = k then (k, v) :: rest else (k', v') :: ainsert rest k v

/-! ## Data model (`core.py` classes `Definition`, `ModuleDef`, `Import`,
`ClassDef`, `FunctionDef`, `ParameterDef`)

`Definition.__eq__`/`__hash__` compare qualified names only, so every Python
`set`/`dict` of definitions is keyed by qname; the helpers below reproduce
that (`set.add` keeps the already-present element on a collision). -/

/-- `compat.BUILTINS_NAME`: `'__builtin__'` on Python 2, `'builtins'` on 3. -/
def BUILTINS_NAME (py2 : Bool) : String :=
  if py2 then "__builtin__" else "builtins"

/-- `Definition.name`: the part of the qname after the last dot
(`qname.rpartition('.')[2]`). -/
def pyDefName (qname : String) : String :=
  ((splitDots qname).getLast?).getD ""

/-- `core.Import`: one import record of a module.  Source invariants
(asserted in `Import.__init__`): `star_import → import_from`, and
`local_name = none → star_import`. -/
structure Import where
  imported_name : String
  local_name : Option String
  import_from : Bool
  star_import : Bool
deriving DecidableEq, Repr

/-- `Import.imports_name(name)`: never true for a star import, else
`qname_qualified_by name local_name` (a `None` local name — which the
constructor's assert reserves to star imports — makes
`qname_qualified_by` return `True` through Python falsiness). -/
def Import.imports_name (imp : Import) (name : String) : Bool :=
  if imp.star_import then false
  else
    match imp.local_name with
    | none => true
    | some l => qname_qualified_by name l

/-- `core.ModuleDef` (the AST `node` field, used only for reflection
bookkeeping, is omitted). -/
structure ModuleDef where
  qname : String
  path : String
  imports : List Import
deriving DecidableEq, Repr

/-- `core.ClassDef`: `bases` are the raw base-name strings as written,
`attributes` the set of own attribute names (a Python `set`, modelled as a
list with membership semantics). -/
structure ClassDef where
  qname : String
  bases : List String
  attributes : List String
  module : Option ModuleDef
deriving DecidableEq, Repr

/-- `core.PY2_FAKE_OBJECT`. -/
def PY2_FAKE_OBJECT : ClassDef :=
  { qname := "PY2_FAKE_OBJECT", bases := [],
    attributes := ["__doc__", "__module__"], module := none }

/-- `core.ParameterDef` with its usage counters. -/
structure ParameterDef where
  qname : String
  attributes : List String
  module : Option ModuleDef
  used_as_argument : Nat := 0
  used_directly : Nat := 0
  used_as_operand : Nat := 0
  returned : Nat := 0
deriving DecidableEq, Repr

/-- `ParameterDef.name` (inherited from `Definition`). -/
def ParameterDef.name (p : ParameterDef) : String :=
  pyDefName p.qname

/-- `core.FunctionDef`. -/
structure FunctionDef where
  qname : String
  module : Option ModuleDef
  parameters : List ParameterDef
deriving DecidableEq, Repr

/-- A resolved definition as returned by `resolve_name` (one of the three
index kinds). -/
inductive PyDef : Type
  | cls (c : ClassDef)
  | func (f : FunctionDef)
  | mod (m : ModuleDef)
deriving DecidableEq, Repr

/-! ### Python sets of `ClassDef` (keyed by qname) -/

/-- Python `c in s` for a set of definitions: membership by qname. -/
def clsMem (c : ClassDef) (s : List ClassDef) : Bool :=
  s.any (·.qname = c.qname)

/-- Membership of a qname in a definition set. -/
def clsMemQ (q : String) (s : List ClassDef) : Bool :=
  s.any (·.qname = q)

/-- Python `s.add(c)`: no-op when an element with the same qname is present
(the existing object is kept). -/
def clsInsert (c : ClassDef) (s : List ClassDef) : List ClassDef :=
  if clsMem c s then s else s ++ [c]

/-- Python `s.update(t)` / `s | t`. -/
def clsUnion (s t : List ClassDef) : List ClassDef :=
  t.foldl (fun acc x => clsInsert x acc) s

/-- Python `s.remove(c)` where `c`'s identity is its qname. -/
def clsRemoveQ (q : String) (s : List ClassDef) : List ClassDef :=
  s.filter (·.qname ≠ q)

/-! ## The analyzer state

All mutable state of one `GreenTypeAnalyzer` run: the five indexes,
`_broken_modules`, the memoization caches of `resolve_name` and
`_resolve_bases`, the spec-modelled in-flight set of the recursion guard,
and the external world (filesystem + parser output) as finite maps:
`pathOf` models `module_name_to_path` (`none` = `ValueError`), `disk` the
result of `ast.parse` + fact extraction per path. -/

/-- Raw fact about one import statement, as handed over by the AST walk
(`SourceModuleIndexer.module_discovered`'s input).  For a from-import,
`package` is the already-computed package of a relative import — the
`child.level`-many `dirname` steps plus `path_to_module_name`, which are
filesystem operations external to this embedding; it is `""` exactly when
`child.level == 0`. -/
inductive RawImportStmt : Type
  | plain (name : String) (asname : Option String)
  | fromImport (module : Option String) (package : String)
      (names : List (String × Option String))
deriving DecidableEq, Repr

/-- Raw facts about one class: its dotted qname relative to the module (the
visitor's lexical-scope chain), its base expressions (`none` for a
computed base expression that `attributes_chain_to_name` rejects), and its
collected own attributes (`ClassAttributeCollector`, external AST walk). -/
structure RawClass where
  relQname : String
  bases : List (Option String)
  attributes : List String
deriving DecidableEq, Repr

/-- Raw facts about one function (input of `function_discovered`): dotted
relative qname, whether the lexical parent scope is a class and whether a
`@staticmethod` decorator is present, the four parameter groups of
`node.args`, and per-parameter collector output (`SimpleAttributesCollector`
and `UsagesCollector` results, external AST walks). -/
structure RawFunction where
  relQname : String
  parentIsClass : Bool
  staticmethod : Bool
  args : List String
  vararg : Option String
  kwarg : Option String
  kwonlyargs : List String
  attrsOf : List (String × List String)
  usagesOf : List (String × (Nat × Nat × Nat × Nat))
deriving DecidableEq, Repr

/-- What `open(path)` + `ast.parse` + the visitor extract from one file:
either a `SyntaxError`, or the module's raw facts. -/
inductive DiskEntry : Type
  | parseError
  | facts (rawImports : List RawImportStmt) (classes : List RawClass)
      (functions : List RawFunction)
deriving DecidableEq, Repr

/-- Memoization key of `resolve_name`: `(name, module, kind)`, where the
module component is its qname (Python hashes `ModuleDef` by qname). -/
structure ResolveKey where
  name : String
  module : Option String
  kind : String
deriving DecidableEq, Repr

/-- Python exceptions that the embedded code can raise. -/
inductive PyExc : Type
  | syntaxError
  | valueError
  | exception
deriving DecidableEq, Repr

/-- The mutable analyzer state plus the (read-only) external world. -/
structure State where
  class_index : List (String × ClassDef) := []
  function_index : List (String × FunctionDef) := []
  module_index : List (String × ModuleDef) := []
  parameter_index : List (String × ParameterDef) := []
  class_attr_index : List (String × List ClassDef) := []
  broken : List String := []
  resolve_memo : List (ResolveKey × Option PyDef) := []
  resolve_inflight : List ResolveKey := []
  rb_memo : List (String × List ClassDef) := []
  pathOf : List (String × String) := []
  disk : List (String × DiskEntry) := []
  includedPrefixes : List String := []
  excludedPrefixes : List String := []
  follow_imports : Bool := false
  py2 : Bool := false
deriving DecidableEq, Repr

/-- `GreenTypeAnalyzer.is_excluded` (on the model's opaque path strings):
an `INCLUDE` prefix wins over an `EXCLUDE` prefix. -/
def is_excluded (st : State) (path : String) : Bool :=
  if st.includedPrefixes.any (fun p => pyStartsWith path p) then false
  else st.excludedPrefixes.any (fun p => pyStartsWith path p)

/-- The definition `register_class` actually stores: for every class except
`builtins.object` (resp. `__builtin__.object` on Python 2) and the Python-2
fake object, the source mutates `class_def.attributes` in place — removing
`'__doc__'` always and `'__init__'` on Python 3.  Since the same object is
stored in `CLASS_INDEX` and filed in `CLASS_ATTRIBUTE_INDEX`, the stripped
definition is what both indexes hold. -/
def registered_def (py2 : Bool) (c : ClassDef) : ClassDef :=
  if c.qname = BUILTINS_NAME py2 ++ ".object" ∨ c.qname = PY2_FAKE_OBJECT.qname
  then c
  else
    let a1 := c.attributes.filter (· ≠ "__doc__")
    { c with attributes := if py2 then a1 else a1.filter (· ≠ "__init__") }

/-- The `for attr in class_def.attributes:` loop of `register_class`:
file the class in `CLASS_ATTRIBUTE_INDEX[attr]` (a `defaultdict(set)`) for
each attribute. -/
def file_attrs (c : ClassDef) (attrs : List String)
    (idx : List (String × List ClassDef)) : List (String × List ClassDef) :=
  attrs.foldl (fun idx a => ainsert idx a (clsInsert c ((alookup idx a).getD []))) idx

/-- `GreenTypeAnalyzer.register_class`. -/
def register_class (st : State) (c : ClassDef) : State :=
  let c' := registered_def st.py2 c
  { st with
    class_index := ainsert st.class_index c'.qname c'
    class_attr_index := file_attrs c' c'.attributes st.class_attr_index }

/-- A fresh analyzer state (all indexes empty), as `GreenTypeAnalyzer.__init__`
creates before any registration. -/
def emptyState (py2 : Bool) : State := { py2 := py2 }

/-- A sequence of `register_class` calls. -/
def register_classes (st : State) (cs : List ClassDef) : State :=
  cs.foldl register_class st

/-- `GreenTypeAnalyzer.register_function`. -/
def register_function (st : State) (f : FunctionDef) : State :=
  { st with
    function_index := ainsert st.function_index f.qname f
    parameter_index :=
      f.parameters.foldl (fun idx p => ainsert idx p.qname p) st.parameter_index }

/-- `GreenTypeAnalyzer.register_module`. -/
def register_module (st : State) (m : ModuleDef) : State :=
  { st with module_index := ainsert st.module_index m.qname m }

/-! ## Execution results

A call either diverges (`div`, the fuel artifact standing for
non-termination), raises a Python exception (`thrown`, carrying the state
at raise time — mutations made before the raise persist), or returns. -/

/-- Result of running an embedded stateful procedure. -/
inductive Res (α : Type) : Type
  | div
  | thrown (e : PyExc) (st : State)
  | ok (a : α) (st : State)
deriving DecidableEq, Repr

/-- Sequencing: propagate divergence and exceptions. -/
def Res.bind {α β : Type} (r : Res α) (f : α → State → Res β) : Res β :=
  match r with
  | .div => .div
  | .thrown e st => .thrown e st
  | .ok a st => f a st

/-- First-match-wins sequencing for resolution: a `some` result returns
immediately, a `none` falls through to the continuation. -/
def Res.orElse (r : Res (Option PyDef)) (k : State → Res (Option PyDef)) :
    Res (Option PyDef) :=
  match r with
  | .div => .div
  | .thrown e st => .thrown e st
  | .ok (some df) st => .ok (some df) st
  | .ok none st => k st

/-! ## Module discovery (`SourceModuleIndexer`) -/

/-- The import records built from one raw statement
(`module_discovered`'s per-statement work).  The from-import cascade is
Python's truthiness test on `child.module` and the computed `package`; when
both are missing the source raises a plain
`Exception('Malformed ImportFrom statement: …')`. -/
def importsOfStmt (stmt : RawImportStmt) : Except PyExc (List Import) :=
  match stmt with
  | .plain name asname =>
    .ok [⟨name, some (asname.getD name), false, false⟩]
  | .fromImport module package names =>
    let moduleTruthy := module.getD "" ≠ ""
    let target? : Except PyExc String :=
      if moduleTruthy ∧ package ≠ "" then .ok (package ++ "." ++ module.getD "")
      else if moduleTruthy then .ok (module.getD "")
      else if package ≠ "" then .ok package
      else .error .exception
    match target? with
    | .error e => .error e
    | .ok target =>
      .ok (names.map fun (n, asn) =>
        if n = "*" then ⟨target, none, true, true⟩
        else ⟨target ++ "." ++ n, some (asn.getD n), true, false⟩)

/-- All import records of a module's raw statements (in declaration
order); the first malformed statement raises. -/
def buildImports : List RawImportStmt → Except PyExc (List Import)
  | [] => .ok []
  | stmt :: rest =>
    match importsOfStmt stmt with
    | .error e => .error e
    | .ok imps =>
      match buildImports rest with
      | .error e => .error e
      | .ok more => .ok (imps ++ more)

/-- `SourceModuleIndexer.module_discovered`: build the import list (raising
on a malformed from-import *before* anything is registered), then construct
and register the `ModuleDef`. -/
def module_discovered (st : State) (name path : String)
    (raw : List RawImportStmt) : Res ModuleDef :=
  match buildImports raw with
  | .error e => .thrown e st
  | .ok imps =>
    let md : ModuleDef := ⟨name, path, imps⟩
    .ok md (register_module st md)

/-- `SourceModuleIndexer.class_discovered`: drop computed base expressions
(with a diagnostic), and when the class has *no* base expressions at all
default to `object` (the fake object on Python 2). -/
def class_discovered (py2 : Bool) (className : String)
    (rawBases : List (Option String)) (attrs : List String)
    (module : Option ModuleDef) : ClassDef :=
  let bases :=
    if rawBases = [] then
      [if py2 then PY2_FAKE_OBJECT.qname else BUILTINS_NAME py2 ++ ".object"]
    else rawBases.filterMap id
  ⟨className, bases, attrs, module⟩

/-- The declared parameter names `function_discovered` iterates over: drop
the leading receiver parameter of a non-static method, append
`*args`/`**kwargs` when present and (on Python 3) the keyword-only
parameters. -/
def declared_parameters (py2 : Bool) (rf : RawFunction) : List String :=
  (if rf.parentIsClass ∧ ¬rf.staticmethod then rf.args.drop 1 else rf.args)
    ++ rf.vararg.toList ++ rf.kwarg.toList
    ++ (if py2 then [] else rf.kwonlyargs)

/-- `SourceModuleIndexer.function_discovered`: give every declared parameter
the qname `func_name + '.' + param_name` together with its collected
attribute set and usage counters. -/
def function_discovered (py2 : Bool) (funcName : String) (rf : RawFunction)
    (module : Option ModuleDef) : FunctionDef :=
  let parameters := (declared_parameters py2 rf).map fun pname =>
    let (arg, dir, op, ret) := ((alookup rf.usagesOf pname).getD (0, 0, 0, 0))
    { qname := funcName ++ "." ++ pname
      attributes := (alookup rf.attrsOf pname).getD []
      module := module
      used_as_argument := arg, used_directly := dir
      used_as_operand := op, returned := ret : ParameterDef }
  ⟨funcName, module, parameters⟩

/-- `SourceModuleIndexer.run`: parse the file (a missing file raises an
uncaught IO error, a parse failure a `SyntaxError`), then visit the tree —
`module_discovered` first, then every class and function definition, each
registered as discovered. -/
def runIndexer (st : State) (path name : String) : Res ModuleDef :=
  match alookup st.disk path with
  | none => .thrown .exception st
  | some .parseError => .thrown .syntaxError st
  | some (.facts rawImports classes functions) =>
    (module_discovered st name path rawImports).bind fun md st =>
      let st := classes.foldl
        (fun s rc =>
          register_class s
            (class_discovered s.py2 (name ++ "." ++ rc.relQname) rc.bases
              rc.attributes (some md))) st
      let st := functions.foldl
        (fun s rf =>
          register_function s
            (function_discovered s.py2 (name ++ "." ++ rf.relQname) rf (some md))) st
      .ok md st

/-- The `FOLLOW_IMPORTS` loop at the end of `index_module` (lines 341-357):
for a plain or star import index the target module itself, for a
`from foo.bar import baz` import index both `foo.bar.baz` and `foo.bar`
(`qname_tail` returning `None` makes the nested `index_module` call raise
`ValueError`).  `im` is the lazy loader at the current fuel. -/
def followLoop (im : State → String → Res (Option ModuleDef)) (st : State) :
    List Import → Res Unit
  | [] => .ok () st
  | imp :: rest =>
    let step : Res Unit :=
      if ¬imp.import_from ∨ imp.star_import then
        (im st imp.imported_name).bind fun _ st' => .ok () st'
      else
        (im st imp.imported_name).bind fun _ st' =>
          match qname_tail imp.imported_name with
          | none => .thrown .valueError st'
          | some t => (im st' t).bind fun _ st'' => .ok () st''
    step.bind fun _ st' => followLoop im st' rest

/-- `GreenTypeAnalyzer.index_module` for a call by module name (the only
form `resolve_name` and the follow-imports loop use): return `None` for a
known-broken name, mark the name broken when `module_name_to_path` fails,
return the already-indexed module if present, skip excluded files, and
otherwise run the indexer — catching *only* `SyntaxError` (marking the path
broken); any other exception escapes. -/
def index_module (fuel : Nat) (st : State) (name : String) :
    Res (Option ModuleDef) :=
  match fuel with
  | 0 => .div
  | fuel + 1 =>
    if name ∈ st.broken then .ok none st
    else
      match alookup st.pathOf name with
      | none => .ok none { st with broken := name :: st.broken }
      | some path =>
        match alookup st.module_index name with
        | some loaded => .ok (some loaded) st
        | none =>
          if is_excluded st path then .ok none st
          else
            match runIndexer st path name with
            | .div => .div
            | .thrown .syntaxError st' =>
              .ok none { st' with broken := path :: st'.broken }
            | .thrown e st' => .thrown e st'
            | .ok md st' =>
              if st'.follow_imports then
                (followLoop (index_module fuel) st' md.imports).bind
                  fun _ st'' => .ok (some md) st''
              else .ok (some md) st'

/-! ## Name resolution (`GreenTypeAnalyzer.resolve_name`) -/

/-- The index chosen by the `type` argument (the `check_loaded` closure
reads it live, so it takes the current state). -/
def kind_index (st : State) (kind : String) (q : String) : Option PyDef :=
  if kind = "class" then (alookup st.class_index q).map .cls
  else if kind = "function" then (alookup st.function_index q).map .func
  else (alookup st.module_index q).map .mod

/-- The import loop of `resolve_name` (lines 448-505), first match wins.
`rn` and `im` are the (guarded, memoized) resolver and the lazy loader at
the current fuel.  The source compares modules by identity (`is not`);
module objects flowing here are index entries, which Python keys by qname,
so the embedding compares qnames. -/
def resolveImportsLoop (rn : State → String → Option ModuleDef → String → Res (Option PyDef))
    (im : State → String → Res (Option ModuleDef))
    (st : State) (name : String) (module : ModuleDef) (kind : String) :
    List Import → Res (Option PyDef)
  | [] => .ok none st
  | imp :: rest =>
    if imp.imports_name name then
      match imp.local_name with
      | none =>
        -- `qname_merge(None, name)` would raise `AttributeError` in Python;
        -- the constructor's assert makes this unreachable for non-star imports
        .thrown .exception st
      | some locName =>
        let qname := replaceFirst (qname_merge locName name) locName imp.imported_name
        match kind_index st kind qname with
        | some df => .ok (some df) st
        | none =>
          if ¬imp.import_from then
            -- case `import some.module [as alias]`
            (im st imp.imported_name).bind fun ml st₁ =>
              match ml with
              | some ml =>
                if ml.qname ≠ module.qname then
                  Res.orElse (rn st₁ (qname_drop name locName) (some ml) kind)
                    (fun st₂ => resolveImportsLoop rn im st₂ name module kind rest)
                else resolveImportsLoop rn im st₁ name module kind rest
              | none => resolveImportsLoop rn im st₁ name module kind rest
          else
            -- case `from some.module import Base [as alias]`:
            -- first interpret it as `from module import Name` …
            match qname_tail imp.imported_name with
            | none => .thrown .valueError st
            | some module_name =>
              (im st module_name).bind fun ml st₁ =>
                let afterFirst : State → Res (Option PyDef) := fun st₂ =>
                  -- … then as `from package import module`
                  (im st₂ imp.imported_name).bind fun ml₂ st₃ =>
                    match ml₂ with
                    | some ml₂ =>
                      if ml₂.qname ≠ module.qname then
                        Res.orElse (rn st₃ (qname_drop name locName) (some ml₂) kind)
                          (fun st₄ => resolveImportsLoop rn im st₄ name module kind rest)
                      else resolveImportsLoop rn im st₃ name module kind rest
                    | none => resolveImportsLoop rn im st₃ name module kind rest
                match ml with
                | some ml =>
                  if ml.qname ≠ module.qname then
                    Res.orElse (rn st₁ (qname_drop qname module_name) (some ml) kind)
                      afterFirst
                  else afterFirst st₁
                | none => afterFirst st₁
    else if imp.star_import then
      (im st imp.imported_name).bind fun ml st₁ =>
        match ml with
        | some ml =>
          if ml.qname ≠ module.qname then
            -- no alias is possible with `from module import *`, so re-resolve
            -- the unchanged name inside the lazily loaded target module
            Res.orElse (rn st₁ name (some ml) kind)
              (fun st₂ => resolveImportsLoop rn im st₂ name module kind rest)
          else resolveImportsLoop rn im st₁ name module kind rest
        | none => resolveImportsLoop rn im st₁ name module kind rest
    else
      resolveImportsLoop rn im st name module kind rest

/-- The undecorated body of `resolve_name` (lines 420-508): reject unknown
kinds with `ValueError`, then try, first match wins: the name itself, the
builtins-qualified name, the same-module-qualified name, and finally the
module's imports in declaration order. -/
def resolveBody (rn : State → String → Option ModuleDef → String → Res (Option PyDef))
    (im : State → String → Res (Option ModuleDef))
    (st : State) (name : String) (module : Option ModuleDef) (kind : String) :
    Res (Option PyDef) :=
  if kind ≠ "class" ∧ kind ≠ "function" ∧ kind ≠ "module" then
    .thrown .valueError st
  else
    match kind_index st kind name with
    | some df => .ok (some df) st
    | none =>
      match kind_index st kind (BUILTINS_NAME st.py2 ++ "." ++ name) with
      | some df => .ok (some df) st
      | none =>
        match module with
        | none => .ok none st
        | some m =>
          match kind_index st kind (m.qname ++ "." ++ name) with
          | some df => .ok (some df) st
          | none => resolveImportsLoop rn im st name m kind m.imports

/-- `GreenTypeAnalyzer.resolve_name`, as decorated in the source:

    @memoized
    @recursion_guard(None)
    def resolve_name(self, name, module, type='class'): …

`memoized` is embedded from `utils/algorithms.py` (result cache written on
return).  `recursion_guard` is *Modelled from the spec*: its definition is
not under `src/` (only the import in `core.py` line 22 and the decoration on
line 419 are); following the spec (§4.4, §5, §9 of `spec.md`), it keeps an
in-progress set keyed by the memo key, makes a re-entrant call with an
identical in-flight key return the guard value `None` immediately, and
removes the key when the outer call leaves (also on an exception, per the
repository's `test_memoized`).  Because `memoized` sits outside the guard, a
re-entrant `None` is written to the cache but the outer call's final
assignment overwrites it. -/
def resolve_name (fuel : Nat) (st : State) (name : String)
    (module : Option ModuleDef) (kind : String) : Res (Option PyDef) :=
  match fuel with
  | 0 => .div
  | fuel + 1 =>
    let key : ResolveKey := ⟨name, module.map (·.qname), kind⟩
    match alookup st.resolve_memo key with
    | some cached => .ok cached st
    | none =>
      if key ∈ st.resolve_inflight then
        .ok none { st with resolve_memo := ainsert st.resolve_memo key none }
      else
        let st₁ := { st with resolve_inflight := key :: st.resolve_inflight }
        match resolveBody (resolve_name fuel) (index_module fuel) st₁ name module kind with
        | .div => .div
        | .thrown e st₂ =>
          .thrown e { st₂ with resolve_inflight := st₂.resolve_inflight.filter (· ≠ key) }
        | .ok r st₂ =>
          .ok r { st₂ with
            resolve_inflight := st₂.resolve_inflight.filter (· ≠ key)
            resolve_memo := ainsert st₂.resolve_memo key r }

/-! ## Base resolution (`GreenTypeAnalyzer._resolve_bases`) -/

/-- The base loop of `_resolve_bases`: skip a base name equal to the class's
own simple name (with a diagnostic), resolve the rest, and union in the
recursively resolved bases of every hit.  `rb`/`rn` are the recursive
resolver functions at the current fuel. -/
def rbLoop (rb : State → ClassDef → Res (List ClassDef))
    (rn : State → String → Option ModuleDef → String → Res (Option PyDef))
    (st : State) (c : ClassDef) (acc : List ClassDef) :
    List String → Res (List ClassDef)
  | [] => .ok acc st
  | n :: rest =>
    if n = pyDefName c.qname then rbLoop rb rn st c acc rest
    else
      (rn st n c.module "class").bind fun df st₁ =>
        match df with
        | some (.cls base) =>
          (rb st₁ base).bind fun sub st₂ =>
            rbLoop rb rn st₂ c (clsUnion (clsInsert base acc) sub) rest
        | _ => rbLoop rb rn st₁ c acc rest

/-- `GreenTypeAnalyzer._resolve_bases`, decorated with the plain `memoized`
of `utils/algorithms.py`: the result cache (keyed by the class's qname,
Python's `Definition.__hash__`) is consulted on entry and written on return
— there is *no* in-flight guard on this function. -/
def resolve_bases (fuel : Nat) (st : State) (c : ClassDef) :
    Res (List ClassDef) :=
  match fuel with
  | 0 => .div
  | fuel + 1 =>
    match alookup st.rb_memo c.qname with
    | some cached => .ok cached st
    | none =>
      (rbLoop (resolve_bases fuel) (resolve_name fuel) st c [] c.bases).bind
        fun bases st' =>
          .ok bases { st' with rb_memo := ainsert st'.rb_memo c.qname bases }

/-! ## Type suggestion (`GreenTypeAnalyzer.suggest_classes`)

`suggest_classes` consults `self._resolve_bases`, which is memoized on the
class qname and hence acts as a fixed qname-keyed map during one inference
pass; the embedding takes that map (`rbm`) as an explicit parameter, with
lookups defaulting to the empty set.  The worklist (a Python set popped in
unspecified order) is modelled as a queue; the fuel bounds the number of
worklist iterations (each iteration retires one never-checked class, so any
fuel at least the number of distinct reachable classes is adequate, and the
claims below are proved for *every* fuel). -/

/-- Python membership of a string in an attribute set. -/
def strMem (a : String) (s : List String) : Bool := s.any (· = a)

/-- `available_attrs = unite(b.attributes for b in bases) | candidate.attributes`
for a candidate, with `bases` the memoized `_resolve_bases` result. -/
def availAttrs (rbm : List (String × List ClassDef)) (c : ClassDef) : List String :=
  ((alookup rbm c.qname).getD []).foldl (fun acc b => acc ++ b.attributes) []
    ++ c.attributes

/-- One pass of the `while candidates:` worklist (lines 551-571). -/
def suggestLoop (rbm : List (String × List ClassDef)) (accessed : List String)
    (followImports : Bool) :
    Nat → List ClassDef → List ClassDef → List ClassDef → List ClassDef
  | 0, _, _, suitable => suitable
  | _ + 1, [], _, suitable => suitable
  | fuel + 1, c :: cs, checked, suitable =>
    let checked' := clsInsert c checked
    let bases := (alookup rbm c.qname).getD []
    let available := availAttrs rbm c
    let suitable' :=
      if accessed.all (fun a => strMem a available) then clsInsert c suitable
      else suitable
    -- new classes may have entered the index during `_resolve_bases`, so
    -- when imports are not followed eagerly, enqueue newly seen bases that
    -- share an accessed attribute
    let candidates' :=
      if followImports then cs
      else
        bases.foldl
          (fun cnd b =>
            if clsMem b checked' then cnd
            else if accessed.any (fun a => strMem a b.attributes) then clsInsert b cnd
            else cnd) cs
    suggestLoop rbm accessed followImports fuel candidates' checked' suitable'

/-- The pruning pass (lines 575-578): walk a snapshot of `suitable` and
remove every class one of whose resolved bases is still in the (mutating)
`suitable` set. -/
def pruneLoop (rbm : List (String × List ClassDef)) :
    List ClassDef → List ClassDef → List ClassDef
  | [], suitable => suitable
  | c :: rest, suitable =>
    let suitable' :=
      if ((alookup rbm c.qname).getD []).any (fun b => clsMem b suitable) then
        clsRemoveQ c.qname suitable
      else suitable
    pruneLoop rbm rest suitable'

/-- `GreenTypeAnalyzer.suggest_classes`: seed the worklist with every class
declaring at least one accessed attribute, run the worklist, then prune
suitable classes that have a suitable ancestor. -/
def suggest_classes (rbm : List (String × List ClassDef))
    (attrIndex : List (String × List ClassDef)) (accessed : List String)
    (followImports : Bool) : List ClassDef :=
  let candidates :=
    accessed.foldl (fun acc a => clsUnion acc ((alookup attrIndex a).getD [])) []
  let fuel := candidates.length + (rbm.map (·.2.length)).sum + 1
  let suitable := suggestLoop rbm accessed followImports fuel candidates [] []
  pruneLoop rbm suitable suitable

/-! ## Basic lemmas about the container helpers -/

theorem alookup_ainsert_self {κ β : Type} [DecidableEq κ]
    (l : List (κ × β)) (k : κ) (v : β) : alookup (ainsert l k v) k = some v := by
  induction l with
  | nil => simp [ainsert, alookup]
  | cons hd tl ih =>
    obtain ⟨k', v'⟩ := hd
    by_cases h : k' = k <;> simp [ainsert, alookup, h, ih]

theorem alookup_ainsert_ne {κ β : Type} [DecidableEq κ]
    (l : List (κ × β)) (k k' : κ) (v : β) (h : k' ≠ k) :
    alookup (ainsert l k v) k' = alookup l k' := by
  have hne : k ≠ k' := fun hh => h hh.symm
  induction l with
  | nil => simp [ainsert, alookup, hne]
  | cons hd tl ih =>
    obtain ⟨k₀, v₀⟩ := hd
    by_cases h0 : k₀ = k
    · subst h0
      simp [ainsert, alookup, hne]
    · simp only [ainsert, if_neg h0]
      by_cases h1 : k₀ = k' <;> simp [alookup, h1, ih]

theorem alookup_mem {κ β : Type} [DecidableEq κ]
    {l : List (κ × β)} {k : κ} {v : β} (h : alookup l k = some v) : (k, v) ∈ l := by
  induction l with
  | nil => simp [alookup] at h
  | cons hd tl ih =>
    obtain ⟨k', v'⟩ := hd
    by_cases h0 : k' = k
    · subst h0
      simp [alookup] at h
      simp [h]
    · simp only [alookup, if_neg h0] at h
      exact List.mem_cons_of_mem _ (ih h)

theorem clsMemQ_true_iff (q : String) (s : List ClassDef) :
    clsMemQ q s = true ↔ ∃ x ∈ s, x.qname = q := by
  simp [clsMemQ, List.any_eq_true]

theorem mem_clsInsert {x c : ClassDef} {s : List ClassDef}
    (h : x ∈ clsInsert c s) : x ∈ s ∨ x = c := by
  unfold clsInsert at h
  by_cases hm : clsMem c s
  · simp [hm] at h
    exact .inl h
  · simp [hm] at h
    rcases h with h | h
    · exact .inl h
    · exact .inr h

theorem clsMemQ_clsInsert_of {q : String} {s : List ClassDef} (c : ClassDef)
    (h : clsMemQ q s = true) : clsMemQ q (clsInsert c s) = true := by
  unfold clsInsert
  by_cases hm : clsMem c s
  · simp [hm, h]
  · simp only [if_neg hm]
    rw [clsMemQ_true_iff] at h ⊢
    obtain ⟨x, hx, hq⟩ := h
    exact ⟨x, List.mem_append_left _ hx, hq⟩

theorem clsMemQ_clsInsert_self (c : ClassDef) (s : List ClassDef) :
    clsMemQ c.qname (clsInsert c s) = true := by
  unfold clsInsert
  by_cases hm : clsMem c s
  · rw [if_pos hm]
    exact hm
  · rw [if_neg hm]
    rw [clsMemQ_true_iff]
    exact ⟨c, List.mem_append_right _ (List.mem_singleton.2 rfl), rfl⟩

theorem mem_clsUnion {x : ClassDef} {s t : List ClassDef}
    (h : x ∈ clsUnion s t) : x ∈ s ∨ x ∈ t := by
  induction t generalizing s with
  | nil => exact .inl h
  | cons c cs ih =>
    rcases ih (s := clsInsert c s) h with h1 | h1
    · rcases mem_clsInsert h1 with h2 | h2
      · exact .inl h2
      · exact .inr (by simp [h2])
    · exact .inr (List.mem_cons_of_mem _ h1)

theorem strMem_true_iff (a : String) (s : List String) :
    strMem a s = true ↔ a ∈ s := by
  simp [strMem, List.any_eq_true]

theorem pyDrop_of_length_le (s : String) {n : Nat} (h : s.length ≤ n) :
    pyDrop s n = "" := by
  unfold pyDrop
  rw [List.drop_eq_nil_of_le h]

/-! ## Claim C7 — `qname_drop` -/

/-- C7 counterexample: the claim states that when `name` equals the
qualifier exactly (no trailing dot) the result is `name` unchanged; the code
(and its own test `test_qname`) returns the empty string instead. -/
theorem claim_C7_counterexample :
    qname_drop "foo.bar" "foo.bar" = "" ∧
      qname_drop "foo.bar" "foo.bar" ≠ "foo.bar" := by decide

/-- C7, amended: `qname_drop name qualifier` removes the leading prefix
`qualifier + "."` when `qualifier` is non-empty and the prefix is present
(an exact character-level prefix, hence an exact segment boundary); it
returns the *empty string* when `name` equals a non-empty `qualifier`
exactly; and it returns `name` unchanged in every other case (in particular
whenever `qualifier` is empty). -/
theorem claim_C7_amended (name qualifier : String) :
    qname_drop name qualifier =
      if qualifier = "" then name
      else if name = qualifier then ""
      else if pyStartsWith name (qualifier ++ ".") then
        pyDrop name (qualifier.length + 1)
      else name := by
  unfold qname_drop qname_qualified_by
  by_cases hq : qualifier = ""
  · simp [hq]
  · by_cases he : name = qualifier
    · subst he
      simp [hq]
      exact pyDrop_of_length_le name (Nat.le_succ _)
    · by_cases hp : pyStartsWith name (qualifier ++ ".") <;> simp [hq, he, hp]

/-! ## Claim C6 — parameter qualified names -/

/-- C6 counterexample: a concrete top-level function `m.f(x)`.  The produced
parameter qname is `"m.f.x"`, not `"m.f" ++ "#" ++ "x"` — the separator the
code uses (core.py line 1083) is `'.'`, not `'#'`. -/
theorem claim_C6_counterexample :
    ((function_discovered false "m.f"
        ⟨"f", false, false, ["x"], none, none, [], [], []⟩ none).parameters.map
        (·.qname)) = ["m.f.x"] ∧
      ("m.f.x" : String) ≠ "m.f" ++ "#" ++ "x" := by decide

/-- C6, amended: for every indexed function and every one of its declared
parameters, the `ParameterDef`'s qualified name is the function's qualified
name, followed by the separator `"."`, followed by the parameter's local
name. -/
theorem claim_C6_amended (py2 : Bool) (funcName : String) (rf : RawFunction)
    (module : Option ModuleDef) :
    (function_discovered py2 funcName rf module).parameters.map (·.qname)
      = (declared_parameters py2 rf).map (fun pname => funcName ++ "." ++ pname) := by
  simp [function_discovered]

/-! ## Lemmas about `suggest_classes` -/

theorem mem_availAttrs_iff (rbm : List (String × List ClassDef)) (c : ClassDef)
    (a : String) :
    a ∈ availAttrs rbm c ↔
      a ∈ c.attributes ∨ ∃ b ∈ (alookup rbm c.qname).getD [], a ∈ b.attributes := by
  unfold availAttrs
  rw [List.mem_append]
  constructor
  · rintro (h | h)
    · right
      have aux : ∀ (bs : List ClassDef) (init : List String),
          a ∈ bs.foldl (fun acc b => acc ++ b.attributes) init →
          a ∈ init ∨ ∃ b ∈ bs, a ∈ b.attributes := by
        intro bs
        induction bs with
        | nil => intro init h; exact .inl h
        | cons b rest ih =>
          intro init h
          rcases ih (init ++ b.attributes) h with h1 | h1
          · rcases List.mem_append.1 h1 with h2 | h2
            · exact .inl h2
            · exact .inr ⟨b, List.mem_cons_self _ _, h2⟩
          · obtain ⟨b', hb', ha'⟩ := h1
            exact .inr ⟨b', List.mem_cons_of_mem _ hb', ha'⟩
      rcases aux _ _ h with h1 | h1
      · exact absurd h1 (List.not_mem_nil a)
      · exact h1
    · exact .inl h
  · rintro (h | ⟨b, hb, ha⟩)
    · exact .inr h
    · left
      have aux : ∀ (bs : List ClassDef) (init : List String),
          (a ∈ init ∨ ∃ b ∈ bs, a ∈ b.attributes) →
          a ∈ bs.foldl (fun acc b => acc ++ b.attributes) init := by
        intro bs
        induction bs with
        | nil =>
          intro init h
          rcases h with h | ⟨b, hb, _⟩
          · exact h
          · exact absurd hb (List.not_mem_nil b)
        | cons b' rest ih =>
          intro init h
          apply ih
          rcases h with h | ⟨b'', hb'', ha''⟩
          · exact .inl (List.mem_append_left _ h)
          · rcases List.mem_cons.1 hb'' with h2 | h2
            · subst h2
              exact .inl (List.mem_append_right _ ha'')
            · exact .inr ⟨b'', h2, ha''⟩
      exact aux _ _ (.inr ⟨b, hb, ha⟩)

/-- Every class the worklist ever adds to `suitable` covers the accessed
attributes through its own plus resolved-base attributes. -/
theorem suggestLoop_sound (rbm : List (String × List ClassDef))
    (accessed : List String) (fi : Bool) :
    ∀ (fuel : Nat) (cands checked suitable : List ClassDef),
      (∀ x ∈ suitable, ∀ a ∈ accessed, strMem a (availAttrs rbm x) = true) →
      ∀ x ∈ suggestLoop rbm accessed fi fuel cands checked suitable,
        ∀ a ∈ accessed, strMem a (availAttrs rbm x) = true := by
  intro fuel
  induction fuel with
  | zero => intro cands checked suitable hinv x hx; exact hinv x hx
  | succ fuel ih =>
    intro cands checked suitable hinv x hx
    match cands with
    | [] => exact hinv x hx
    | c :: cs =>
      apply ih _ _ _ _ x hx
      intro y hy a ha
      by_cases hall : accessed.all (fun a => strMem a (availAttrs rbm c)) = true
      · simp only [suggestLoop, hall, if_true] at hy ⊢
        rcases mem_clsInsert hy with h1 | h1
        · exact hinv y h1 a ha
        · subst h1
          exact List.all_eq_true.1 hall a ha
      · simp only [suggestLoop, hall, if_false] at hy ⊢
        exact hinv y hy a ha

/-- Provenance of worklist members: everything ever in the returned
`suitable` set came from the initial `suitable`, the initial candidate set,
or some `_resolve_bases` image. -/
theorem suggestLoop_src (rbm : List (String × List ClassDef))
    (accessed : List String) (fi : Bool) :
    ∀ (fuel : Nat) (cands checked suitable : List ClassDef),
      ∀ x ∈ suggestLoop rbm accessed fi fuel cands checked suitable,
        x ∈ suitable ∨ x ∈ cands ∨
          ∃ q bs, alookup rbm q = some bs ∧ x ∈ bs := by
  intro fuel
  induction fuel with
  | zero => intro cands checked suitable x hx; exact .inl hx
  | succ fuel ih =>
    intro cands checked suitable x hx
    match cands with
    | [] => exact .inl hx
    | c :: cs =>
      simp only [suggestLoop] at hx
      rcases ih _ _ _ x hx with h1 | h1 | h1
      · -- from the new suitable set
        by_cases hall : accessed.all (fun a => strMem a (availAttrs rbm c)) = true
        · rw [if_pos hall] at h1
          rcases mem_clsInsert h1 with h2 | h2
          · exact .inl h2
          · exact .inr (.inl (h2 ▸ List.mem_cons_self _ _))
        · rw [if_neg hall] at h1
          exact .inl h1
      · -- from the new candidate set
        by_cases hf : fi
        · rw [if_pos hf] at h1
          exact .inr (.inl (List.mem_cons_of_mem _ h1))
        · rw [if_neg hf] at h1
          -- fold over bases, conditionally inserting new candidates
          have aux : ∀ (bs cnd : List ClassDef),
              x ∈ bs.foldl (fun cnd b =>
                if clsMem b (clsInsert c checked) then cnd
                else if accessed.any (fun a => strMem a b.attributes) then clsInsert b cnd
                else cnd) cnd →
              x ∈ cnd ∨ x ∈ bs := by
            intro bs
            induction bs with
            | nil => intro cnd h; exact .inl h
            | cons b rest ihb =>
              intro cnd h
              rw [List.foldl_cons] at h
              rcases ihb _ h with h2 | h2
              · by_cases hc1 : clsMem b (clsInsert c checked)
                · rw [if_pos hc1] at h2
                  exact .inl h2
                · rw [if_neg hc1] at h2
                  by_cases hc2 : accessed.any (fun a => strMem a b.attributes) = true
                  · rw [if_pos hc2] at h2
                    rcases mem_clsInsert h2 with h3 | h3
                    · exact .inl h3
                    · exact .inr (h3 ▸ List.mem_cons_self _ _)
                  · rw [if_neg hc2] at h2
                    exact .inl h2
              · exact .inr (List.mem_cons_of_mem _ h2)
          rcases aux _ _ h1 with h2 | h2
          · exact .inr (.inl (List.mem_cons_of_mem _ h2))
          · -- a member of the `_resolve_bases` image of `c`
            cases hq : alookup rbm c.qname with
            | none => simp [hq] at h2
            | some bs => exact .inr (.inr ⟨c.qname, bs, hq, by simpa [hq] using h2⟩)
      · exact .inr (.inr h1)

/-- The pruning pass only removes elements. -/
theorem pruneLoop_subset (rbm : List (String × List ClassDef)) :
    ∀ (l s : List ClassDef), ∀ x ∈ pruneLoop rbm l s, x ∈ s := by
  intro l
  induction l with
  | nil => intro s x hx; exact hx
  | cons c rest ih =>
    intro s x hx
    simp only [pruneLoop] at hx
    by_cases hc : ((alookup rbm c.qname).getD []).any (fun b => clsMem b s) = true
    · rw [if_pos hc] at hx
      have := ih _ x hx
      exact List.mem_of_mem_filter this
    · rw [if_neg hc] at hx
      exact ih _ x hx

/-- The central pruning property: a surviving class processed by the prune
loop has no surviving class among its resolved bases. -/
theorem pruneLoop_no_suitable_base (rbm : List (String × List ClassDef))
    (M1 M2 : ClassDef) :
    ∀ (l s : List ClassDef), M1 ∈ l →
      M1 ∈ pruneLoop rbm l s → M2 ∈ pruneLoop rbm l s →
      clsMemQ M2.qname ((alookup rbm M1.qname).getD []) = false := by
  intro l
  induction l with
  | nil => intro s h; exact absurd h (List.not_mem_nil M1)
  | cons c rest ih =>
    intro s hM1l h1 h2
    rcases List.mem_cons.1 hM1l with hc | hc
    · -- M1 is the class processed at this step
      subst hc
      simp only [pruneLoop] at h1 h2
      by_cases hcond : ((alookup rbm M1.qname).getD []).any (fun b => clsMem b s) = true
      · -- M1 would have been removed, contradicting its survival
        rw [if_pos hcond] at h1
        have hmem := pruneLoop_subset rbm _ _ _ h1
        have : M1.qname ≠ M1.qname := by
          have := List.mem_filter.1 hmem
          simpa [clsRemoveQ] using this.2
        exact absurd rfl this
      · -- no resolved base of M1 was in `suitable`, in particular not M2
        rw [if_neg hcond] at h1 h2
        by_contra hne
        have hmemQ : clsMemQ M2.qname ((alookup rbm M1.qname).getD []) = true := by
          revert hne
          cases clsMemQ M2.qname ((alookup rbm M1.qname).getD []) <;> simp
        obtain ⟨b, hb, hbq⟩ := (clsMemQ_true_iff _ _).1 hmemQ
        apply hcond
        rw [List.any_eq_true]
        refine ⟨b, hb, ?_⟩
        have hM2s : M2 ∈ s := pruneLoop_subset rbm _ _ _ h2
        unfold clsMem
        rw [List.any_eq_true]
        exact ⟨M2, hM2s, by simp [hbq]⟩
    · -- M1 is processed later
      simp only [pruneLoop] at h1 h2
      exact ih _ hc h1 h2

/-- Every member of the returned suggestion set covers the accessed
attributes through its own plus resolved-base attributes (shared between
the claims about `suggest_classes`). -/
theorem suggest_covers (rbm attrIndex : List (String × List ClassDef))
    (accessed : List String) (fi : Bool) (M : ClassDef)
    (hM : M ∈ suggest_classes rbm attrIndex accessed fi) :
    ∀ a ∈ accessed,
      a ∈ M.attributes ∨ ∃ b ∈ (alookup rbm M.qname).getD [], a ∈ b.attributes := by
  intro a ha
  unfold suggest_classes at hM
  have hS := pruneLoop_subset rbm _ _ _ hM
  have hsound := suggestLoop_sound rbm accessed fi _ _ _ _
    (by intro x hx; exact absurd hx (List.not_mem_nil x)) M hS a ha
  exact (mem_availAttrs_iff rbm M a).1 ((strMem_true_iff _ _).1 hsound)

/-! ## Claim C1 — every suggested class covers the structural type -/

/-- C1, confirmed: every member `M` of `suggest_classes accessed` satisfies
`accessed ⊆ M.attributes ∪ ⋃ (b.attributes for b in resolveBases M)`, where
`rbm` is the memoized `_resolve_bases` map the analyzer consults. -/
theorem claim_C1 (rbm attrIndex : List (String × List ClassDef))
    (accessed : List String) (fi : Bool) (M : ClassDef)
    (hM : M ∈ suggest_classes rbm attrIndex accessed fi) :
    ∀ a ∈ accessed,
      a ∈ M.attributes ∨ ∃ b ∈ (alookup rbm M.qname).getD [], a ∈ b.attributes :=
  suggest_covers rbm attrIndex accessed fi M hM

/-- C1 witness at a concrete one-class index. -/
theorem claim_C1_witness :
    ("foo" : String) ∈ (⟨"m.A", [], ["foo"], none⟩ : ClassDef).attributes ∨
      ∃ b ∈ (alookup ([] : List (String × List ClassDef)) "m.A").getD [],
        ("foo" : String) ∈ b.attributes :=
  claim_C1 [] [("foo", [⟨"m.A", [], ["foo"], none⟩])] ["foo"] true
    ⟨"m.A", [], ["foo"], none⟩ (by decide) "foo" (by decide)

/-! ## Claim C2 — the returned set is an antichain -/

/-- C2, confirmed: no returned class is a (Python-membership, i.e. qname)
member of another returned class's resolved bases; in particular a suitable
class with a suitable ancestor is removed. -/
theorem claim_C2 (rbm attrIndex : List (String × List ClassDef))
    (accessed : List String) (fi : Bool) (M1 M2 : ClassDef)
    (h1 : M1 ∈ suggest_classes rbm attrIndex accessed fi)
    (h2 : M2 ∈ suggest_classes rbm attrIndex accessed fi) :
    clsMemQ M2.qname ((alookup rbm M1.qname).getD []) = false := by
  unfold suggest_classes at h1 h2
  exact pruneLoop_no_suitable_base rbm M1 M2 _ _
    (pruneLoop_subset rbm _ _ _ h1) h1 h2

/-- C2 witness at a concrete one-class index. -/
theorem claim_C2_witness :
    clsMemQ "m.A" ((alookup ([] : List (String × List ClassDef)) "m.A").getD [])
      = false :=
  claim_C2 [] [("foo", [⟨"m.A", [], ["foo"], none⟩])] ["foo"] true
    ⟨"m.A", [], ["foo"], none⟩ ⟨"m.A", [], ["foo"], none⟩ (by decide) (by decide)

/-! ## Lemmas about class registration -/

theorem file_attrs_cons (c : ClassDef) (a0 : String) (rest : List String)
    (idx : List (String × List ClassDef)) :
    file_attrs c (a0 :: rest) idx
      = file_attrs c rest (ainsert idx a0 (clsInsert c ((alookup idx a0).getD []))) :=
  rfl

theorem file_attrs_memQ_mono (c : ClassDef) :
    ∀ (attrs : List String) (idx : List (String × List ClassDef)) (a q : String),
      clsMemQ q ((alookup idx a).getD []) = true →
      clsMemQ q ((alookup (file_attrs c attrs idx) a).getD []) = true := by
  intro attrs
  induction attrs with
  | nil => intro idx a q h; exact h
  | cons a0 rest ih =>
    intro idx a q h
    rw [file_attrs_cons]
    apply ih
    by_cases ha : a0 = a
    · subst ha
      rw [alookup_ainsert_self]
      simpa using clsMemQ_clsInsert_of c h
    · rw [alookup_ainsert_ne _ _ _ _ (fun hh => ha hh.symm)]
      exact h

theorem file_attrs_self (c : ClassDef) :
    ∀ (attrs : List String) (idx : List (String × List ClassDef)) (a : String),
      a ∈ attrs →
      clsMemQ c.qname ((alookup (file_attrs c attrs idx) a).getD []) = true := by
  intro attrs
  induction attrs with
  | nil => intro idx a h; exact absurd h (List.not_mem_nil a)
  | cons a0 rest ih =>
    intro idx a h
    rw [file_attrs_cons]
    rcases List.mem_cons.1 h with h1 | h1
    · subst h1
      apply file_attrs_memQ_mono
      rw [alookup_ainsert_self]
      simpa using clsMemQ_clsInsert_self c _
    · exact ih _ _ h1

theorem file_attrs_src (c : ClassDef) :
    ∀ (attrs : List String) (idx : List (String × List ClassDef)) (a : String)
      (x : ClassDef),
      x ∈ (alookup (file_attrs c attrs idx) a).getD [] →
      x ∈ (alookup idx a).getD [] ∨ (x = c ∧ a ∈ attrs) := by
  intro attrs
  induction attrs with
  | nil => intro idx a x h; exact .inl h
  | cons a0 rest ih =>
    intro idx a x h
    rw [file_attrs_cons] at h
    rcases ih _ _ _ h with h1 | h1
    · by_cases ha : a0 = a
      · subst ha
        rw [alookup_ainsert_self] at h1
        simp only [Option.getD_some] at h1
        rcases mem_clsInsert h1 with h2 | h2
        · exact .inl h2
        · exact .inr ⟨h2, List.mem_cons_self _ _⟩
      · rw [alookup_ainsert_ne _ _ _ _ (fun hh => ha hh.symm)] at h1
        exact .inl h1
    · exact .inr ⟨h1.1, List.mem_cons_of_mem _ h1.2⟩

/-- Invariant of a state built by `register_class` calls from a fresh state:
key/qname consistency and provenance of `CLASS_INDEX`, provenance of
`CLASS_ATTRIBUTE_INDEX` entries (each filed under one of its own attributes),
and coverage of every stored class under each of its own attributes. -/
def RegInv (py2 : Bool) (cs : List ClassDef) (st : State) : Prop :=
  st.py2 = py2 ∧
  (∀ q c, alookup st.class_index q = some c →
     q = c.qname ∧ ∃ c0 ∈ cs, c = registered_def py2 c0) ∧
  (∀ a x, x ∈ (alookup st.class_attr_index a).getD [] →
     a ∈ x.attributes ∧ ∃ c0 ∈ cs, x = registered_def py2 c0) ∧
  (∀ q c, alookup st.class_index q = some c →
     ∀ a ∈ c.attributes,
       clsMemQ q ((alookup st.class_attr_index a).getD []) = true)

theorem RegInv_empty (py2 : Bool) : RegInv py2 [] (emptyState py2) := by
  refine ⟨rfl, ?_, ?_, ?_⟩
  · intro q c h
    simp [emptyState, alookup] at h
  · intro a x h
    simp [emptyState, alookup] at h
  · intro q c h
    simp [emptyState, alookup] at h

theorem RegInv_step {py2 : Bool} {cs : List ClassDef} {st : State}
    (h : RegInv py2 cs st) (c0 : ClassDef) :
    RegInv py2 (cs ++ [c0]) (register_class st c0) := by
  obtain ⟨hpy, hci, hai, hcov⟩ := h
  have hreg : register_class st c0 =
      { st with
        class_index := ainsert st.class_index (registered_def py2 c0).qname
          (registered_def py2 c0)
        class_attr_index := file_attrs (registered_def py2 c0)
          (registered_def py2 c0).attributes st.class_attr_index } := by
    rw [register_class, hpy]
  rw [hreg]
  set c' := registered_def py2 c0 with hc'
  refine ⟨hpy, ?_, ?_, ?_⟩
  · intro q c hq
    by_cases he : c'.qname = q
    · subst he
      rw [alookup_ainsert_self] at hq
      cases hq
      exact ⟨rfl, c0, List.mem_append_right _ (List.mem_singleton.2 rfl), rfl⟩
    · rw [alookup_ainsert_ne _ _ _ _ (fun hh => he hh.symm)] at hq
      obtain ⟨h1, c1, hc1, h2⟩ := hci q c hq
      exact ⟨h1, c1, List.mem_append_left _ hc1, h2⟩
  · intro a x hx
    rcases file_attrs_src c' _ _ _ _ hx with h1 | h1
    · obtain ⟨h2, c1, hc1, h3⟩ := hai a x h1
      exact ⟨h2, c1, List.mem_append_left _ hc1, h3⟩
    · exact ⟨h1.1 ▸ h1.2, c0,
        List.mem_append_right _ (List.mem_singleton.2 rfl), h1.1⟩
  · intro q c hq a ha
    by_cases he : c'.qname = q
    · subst he
      rw [alookup_ainsert_self] at hq
      cases hq
      exact file_attrs_self c' _ _ _ ha
    · rw [alookup_ainsert_ne _ _ _ _ (fun hh => he hh.symm)] at hq
      exact file_attrs_memQ_mono c' _ _ _ _ (hcov q c hq a ha)

theorem RegInv_fold (py2 : Bool) :
    ∀ (cs pre : List ClassDef) (st : State),
      RegInv py2 pre st → RegInv py2 (pre ++ cs) (register_classes st cs) := by
  intro cs
  induction cs with
  | nil =>
    intro pre st h
    simpa [register_classes] using h
  | cons c0 rest ih =>
    intro pre st h
    have h2 := ih (pre ++ [c0]) _ (RegInv_step h c0)
    have heq : (pre ++ [c0]) ++ rest = pre ++ (c0 :: rest) := by
      simp
    rw [heq] at h2
    exact h2

theorem RegInv_of_registered (py2 : Bool) (cs : List ClassDef) :
    RegInv py2 cs (register_classes (emptyState py2) cs) := by
  have h := RegInv_fold py2 cs [] (emptyState py2) (RegInv_empty py2)
  rwa [List.nil_append] at h

/-! ## Claim C9 — the class-index / attribute-index invariant -/

/-- C9 counterexample: register `m.A` with attributes `{foo}`, then
re-register `m.A` with attributes `{bar}` (last write wins in
`CLASS_INDEX`).  The stored class's own attributes are `{bar}`, yet — since
Python set membership of definitions is by qname — it still *appears* in
`CLASS_ATTRIBUTE_INDEX['foo']`, an attribute name that is not one of its
own, refuting "and under no other attribute name". -/
theorem claim_C9_counterexample :
    alookup (register_classes (emptyState false)
        [⟨"m.A", [], ["foo"], none⟩, ⟨"m.A", [], ["bar"], none⟩]).class_index "m.A"
      = some ⟨"m.A", [], ["bar"], none⟩ ∧
    clsMemQ "m.A" ((alookup (register_classes (emptyState false)
        [⟨"m.A", [], ["foo"], none⟩, ⟨"m.A", [], ["bar"], none⟩]).class_attr_index
        "foo").getD []) = true ∧
    strMem "foo" (⟨"m.A", [], ["bar"], none⟩ : ClassDef).attributes = false := by
  decide

/-- C9, amended: after any sequence of `register_class` calls on a fresh
state, (i) every `ClassDef` stored in `CLASS_INDEX` appears (by qname) in
`CLASS_ATTRIBUTE_INDEX` under each of its own attribute names, and (ii)
every entry of `CLASS_ATTRIBUTE_INDEX` under an attribute name `a` is a
class filed there by some registration whose stripped attribute set
contains `a` — so a class may additionally appear under attribute names of
*earlier* registrations with the same qname (stale entries are not removed
on re-registration), but under no attribute name that no registration of
that qname ever carried. -/
theorem claim_C9_amended (py2 : Bool) (cs : List ClassDef) :
    (∀ q c,
       alookup (register_classes (emptyState py2) cs).class_index q = some c →
       ∀ a ∈ c.attributes,
         clsMemQ q ((alookup (register_classes (emptyState py2) cs).class_attr_index
           a).getD []) = true) ∧
    (∀ a x,
       x ∈ (alookup (register_classes (emptyState py2) cs).class_attr_index
         a).getD [] →
       a ∈ x.attributes ∧ ∃ c0 ∈ cs, x = registered_def py2 c0) := by
  have h := RegInv_of_registered py2 cs
  exact ⟨h.2.2.2, h.2.2.1⟩

/-- C9 witness: a single registration, checked at its only attribute. -/
theorem claim_C9_witness :
    clsMemQ "m.A" ((alookup (register_classes (emptyState false)
      [⟨"m.A", [], ["foo"], none⟩]).class_attr_index "foo").getD []) = true :=
  (claim_C9_amended false [⟨"m.A", [], ["foo"], none⟩]).1 "m.A"
    ⟨"m.A", [], ["foo"], none⟩ (by decide) "foo" (by decide)

/-! ## Claim C10 — `__doc__`/`__init__` stripping and its inference effect -/

/-- The two qnames whose attribute sets `register_class` leaves untouched. -/
def exempt_qname (py2 : Bool) (q : String) : Prop :=
  q = BUILTINS_NAME py2 ++ ".object" ∨ q = PY2_FAKE_OBJECT.qname

instance (py2 : Bool) (q : String) : Decidable (exempt_qname py2 q) := by
  unfold exempt_qname
  infer_instance

theorem registered_def_qname (py2 : Bool) (c : ClassDef) :
    (registered_def py2 c).qname = c.qname := by
  unfold registered_def
  by_cases h : c.qname = BUILTINS_NAME py2 ++ ".object" ∨
      c.qname = PY2_FAKE_OBJECT.qname <;> simp [h]

theorem registered_def_strip (py2 : Bool) (c : ClassDef)
    (h : ¬ exempt_qname py2 c.qname) :
    "__doc__" ∉ (registered_def py2 c).attributes ∧
      (py2 = false → "__init__" ∉ (registered_def py2 c).attributes) := by
  unfold registered_def
  have h' : ¬ (c.qname = BUILTINS_NAME py2 ++ ".object" ∨
      c.qname = PY2_FAKE_OBJECT.qname) := h
  rw [if_neg h']
  constructor
  · intro hmem
    by_cases hp : py2 <;> simp [hp, List.mem_filter] at hmem
  · intro hp hmem
    simp [hp, List.mem_filter] at hmem

/-- Provenance of the seeded candidate set. -/
theorem mem_seed (attrIndex : List (String × List ClassDef)) :
    ∀ (accessed : List String) (acc : List ClassDef) (x : ClassDef),
      x ∈ accessed.foldl
        (fun acc a => clsUnion acc ((alookup attrIndex a).getD [])) acc →
      x ∈ acc ∨ ∃ a, x ∈ (alookup attrIndex a).getD [] := by
  intro accessed
  induction accessed with
  | nil => intro acc x h; exact .inl h
  | cons a0 rest ih =>
    intro acc x h
    rw [List.foldl_cons] at h
    rcases ih _ _ h with h1 | h1
    · rcases mem_clsUnion h1 with h2 | h2
      · exact .inl h2
      · exact .inr ⟨a0, h2⟩
    · exact .inr h1

/-- Provenance of the returned suggestion set: every member came from the
attribute index or from a `_resolve_bases` image. -/
theorem suggest_src (rbm attrIndex : List (String × List ClassDef))
    (accessed : List String) (fi : Bool) (M : ClassDef)
    (hM : M ∈ suggest_classes rbm attrIndex accessed fi) :
    (∃ a, M ∈ (alookup attrIndex a).getD []) ∨
      ∃ q bs, alookup rbm q = some bs ∧ M ∈ bs := by
  unfold suggest_classes at hM
  have hS := pruneLoop_subset rbm _ _ _ hM
  rcases suggestLoop_src rbm accessed fi _ _ _ _ M hS with h1 | h1 | h1
  · exact absurd h1 (List.not_mem_nil M)
  · rcases mem_seed attrIndex accessed [] M h1 with h2 | h2
    · exact absurd h2 (List.not_mem_nil M)
    · exact .inl h2
  · exact .inr h1

/-- C10, confirmed: (i) `register_class` strips `'__doc__'` (and on
Python 3 also `'__init__'`) from every class except `builtins.object`
(resp. `__builtin__.object`) and the Python-2 fake object before populating
the attribute index, so these names are never own attributes of an
ordinary registered class; (ii) consequently, on Python 3, a structural
type containing `'__init__'` or `'__doc__'` can only be satisfied through
a class carrying an exempt qname — `builtins.object` (or the fake object's
qname): any suggested class either is such a class or reaches the name
through one among its resolved bases.  `rbm` abstracts the memoized
`_resolve_bases` map; as in the analyzer — where its values are
`resolve_name` results, i.e. entries of `CLASS_INDEX` — its members are
required to be stored classes. -/
theorem claim_C10 :
    (∀ (py2 : Bool) (c : ClassDef), ¬ exempt_qname py2 c.qname →
       "__doc__" ∉ (registered_def py2 c).attributes ∧
       (py2 = false → "__init__" ∉ (registered_def py2 c).attributes)) ∧
    (∀ (cs : List ClassDef) (rbm : List (String × List ClassDef))
       (accessed : List String) (fi : Bool) (M : ClassDef) (abad : String),
       (∀ q bs, alookup rbm q = some bs → ∀ b ∈ bs, ∃ q',
          alookup (register_classes (emptyState false) cs).class_index q'
            = some b) →
       M ∈ suggest_classes rbm
         (register_classes (emptyState false) cs).class_attr_index accessed fi →
       abad ∈ accessed → (abad = "__init__" ∨ abad = "__doc__") →
       exempt_qname false M.qname ∨
         ∃ b ∈ (alookup rbm M.qname).getD [], exempt_qname false b.qname) := by
  constructor
  · exact fun py2 c h => registered_def_strip py2 c h
  · intro cs rbm accessed fi M abad hrb hM habad hbad
    have hinv := RegInv_of_registered false cs
    -- any class stored by this run that carries `abad` has an exempt qname
    have key : ∀ c0 : ClassDef, ∀ x, x = registered_def false c0 →
        abad ∈ x.attributes → exempt_qname false x.qname := by
      intro c0 x hx hax
      by_contra hne
      have hqe : x.qname = c0.qname := hx ▸ registered_def_qname false c0
      have hne0 : ¬ exempt_qname false c0.qname := by rwa [hqe] at hne
      obtain ⟨hdoc, hinit⟩ := registered_def_strip false c0 hne0
      rcases hbad with hb | hb
      · exact (hinit rfl) (by rwa [hb, hx] at hax)
      · exact hdoc (by rwa [hb, hx] at hax)
    rcases suggest_covers rbm _ accessed fi M hM abad habad with hin | ⟨b, hb, hbin⟩
    · -- `abad` is among M's own attributes
      left
      rcases suggest_src rbm _ accessed fi M hM with ⟨a, ha⟩ | ⟨q, bs, hq, hmem⟩
      · obtain ⟨_, c0, _, hc0⟩ := hinv.2.2.1 a M ha
        exact key c0 M hc0 hin
      · obtain ⟨q', hq'⟩ := hrb q bs hq M hmem
        obtain ⟨_, c0, _, hc0⟩ := hinv.2.1 q' M hq'
        exact key c0 M hc0 hin
    · -- `abad` comes from a resolved base
      right
      refine ⟨b, hb, ?_⟩
      cases hlk : alookup rbm M.qname with
      | none => rw [hlk] at hb; exact absurd hb (List.not_mem_nil b)
      | some bs =>
        rw [hlk] at hb
        simp only [Option.getD_some] at hb
        obtain ⟨q', hq'⟩ := hrb M.qname bs hlk b hb
        obtain ⟨_, c0, _, hc0⟩ := hinv.2.1 q' b hq'
        exact key c0 b hc0 hbin

/-- C10 witness: with only `builtins.object` (attributes kept) registered,
a parameter accessing `__init__` is suggested `builtins.object` itself. -/
theorem claim_C10_witness :
    ("__doc__" ∉ (registered_def false ⟨"m.C", [], ["__doc__", "foo"], none⟩).attributes) ∧
    (exempt_qname false
        (⟨"builtins.object", [], ["__init__"], none⟩ : ClassDef).qname ∨
      ∃ b ∈ (alookup ([] : List (String × List ClassDef))
        (⟨"builtins.object", [], ["__init__"], none⟩ : ClassDef).qname).getD [],
        exempt_qname false b.qname) :=
  ⟨(claim_C10.1 false ⟨"m.C", [], ["__doc__", "foo"], none⟩ (by decide)).1,
    claim_C10.2 [⟨"builtins.object", [], ["__init__"], none⟩] [] ["__init__"] true
      ⟨"builtins.object", [], ["__init__"], none⟩ "__init__"
      (by intro q bs h; simp [alookup] at h) (by decide) (by decide) (.inl rfl)⟩

/-! ## Claim C8 — error locality of `index_module` -/

/-- C8 scenario: module `m` whose only statement is a from-import with
neither source module nor package context (AST: `child.module is None` and
`child.level == 0`). -/
def c8State : State :=
  { pathOf := [("m", "/src/m.py")]
    disk := [("/src/m.py", .facts [.fromImport none "" [("x", none)]] [] [])] }

/-- C8 counterexample: on the malformed from-import, `module_discovered`
raises a plain `Exception`, which `index_module` (catching only
`SyntaxError`) lets escape: the call neither returns `None` nor marks the
module broken — the state is completely unchanged — refuting "the module is
marked broken and excluded, no exception escapes index_module". -/
theorem claim_C8_counterexample :
    index_module 2 c8State "m" = .thrown .exception c8State ∧
      c8State.broken = [] := by decide

/-- C8, amended: only a `SyntaxError` during indexing is handled locally —
the module's path is marked broken, `None` is returned, and the run
continues; a from-import statement lacking both module and package context
instead raises a plain `Exception` out of `module_discovered` that
`index_module` does *not* catch: the exception escapes `index_module` with
the state unchanged (in particular the module is not marked broken). -/
theorem claim_C8_amended (st : State) (name path : String) (f : Nat)
    (hb : name ∉ st.broken)
    (hp : alookup st.pathOf name = some path)
    (hm : alookup st.module_index name = none)
    (he : is_excluded st path = false) :
    (alookup st.disk path = some .parseError →
       index_module (f + 1) st name
         = .ok none { st with broken := path :: st.broken }) ∧
    (∀ rawImports classes functions,
       alookup st.disk path = some (.facts rawImports classes functions) →
       buildImports rawImports = .error .exception →
       index_module (f + 1) st name = .thrown .exception st) := by
  constructor
  · intro hd
    simp [index_module, runIndexer, hb, hp, hm, he, hd]
  · intro rawImports classes functions hd herr
    simp [index_module, runIndexer, module_discovered, Res.bind, hb, hp, hm, he,
      hd, herr]

/-- C8 witness: the syntax-error path at a one-module state, and the
escaping exception at the malformed-import state. -/
theorem claim_C8_witness :
    (index_module 1 { pathOf := [("m", "/p")], disk := [("/p", .parseError)] } "m"
       = .ok none { pathOf := [("m", "/p")], disk := [("/p", .parseError)],
                    broken := ["/p"] }) ∧
    index_module 1 c8State "m" = .thrown .exception c8State :=
  ⟨(claim_C8_amended { pathOf := [("m", "/p")], disk := [("/p", .parseError)] }
      "m" "/p" 0 (by decide) (by decide) (by decide) (by decide)).1 (by decide),
    (claim_C8_amended c8State "m" "/src/m.py" 0 (by decide) (by decide)
      (by decide) (by decide)).2 [.fromImport none "" [("x", none)]] [] []
      (by decide) rfl⟩

/-! ## Claim C4 — `_resolve_bases` on cyclic base graphs

`_resolve_bases` is memoized by the *plain* `memoized` of
`utils/algorithms.py`, which writes its cache only when the call returns —
there is no in-flight guard.  Two distinct classes naming each other as
base therefore recurse forever (a `RecursionError` in CPython): the skip
applies only to a base name equal to the class's *own simple name*. -/

/-- Two statically indexable classes `class A(B)` / `class B(A)` in one
module. -/
def c4Module : ModuleDef := ⟨"m", "/src/m.py", []⟩

def c4ClsA : ClassDef := ⟨"m.A", ["B"], [], some c4Module⟩

def c4ClsB : ClassDef := ⟨"m.B", ["A"], [], some c4Module⟩

def c4State : State :=
  { class_index := [("m.A", c4ClsA), ("m.B", c4ClsB)]
    module_index := [("m", c4Module)] }

def c4KeyB : ResolveKey := ⟨"B", some "m", "class"⟩

def c4KeyA : ResolveKey := ⟨"A", some "m", "class"⟩

/-- State after `resolve_name` has memoized `B ↦ m.B`. -/
def c4State1 : State :=
  { c4State with resolve_memo := [(c4KeyB, some (.cls c4ClsB))] }

/-- State after `resolve_name` has additionally memoized `A ↦ m.A`; from
here the `_resolve_bases` recursion is state-periodic. -/
def c4State2 : State :=
  { c4State with
    resolve_memo := [(c4KeyB, some (.cls c4ClsB)), (c4KeyA, some (.cls c4ClsA))] }

theorem c4_stepA (g : Nat) :
    resolve_bases (g + 2) c4State2 c4ClsA
      = Res.bind (Res.bind (resolve_bases (g + 1) c4State2 c4ClsB)
          (fun sub st => rbLoop (resolve_bases (g + 1)) (resolve_name (g + 1)) st
            c4ClsA (clsUnion (clsInsert c4ClsB []) sub) []))
          (fun bases st' => Res.ok bases
            { st' with rb_memo := ainsert st'.rb_memo c4ClsA.qname bases }) := rfl

theorem c4_stepB (g : Nat) :
    resolve_bases (g + 2) c4State2 c4ClsB
      = Res.bind (Res.bind (resolve_bases (g + 1) c4State2 c4ClsA)
          (fun sub st => rbLoop (resolve_bases (g + 1)) (resolve_name (g + 1)) st
            c4ClsB (clsUnion (clsInsert c4ClsA []) sub) []))
          (fun bases st' => Res.ok bases
            { st' with rb_memo := ainsert st'.rb_memo c4ClsB.qname bases }) := rfl

/-- From the periodic state, `_resolve_bases` diverges at every fuel. -/
theorem c4_div2 : ∀ f, resolve_bases f c4State2 c4ClsA = .div ∧
    resolve_bases f c4State2 c4ClsB = .div := by
  intro f
  induction f with
  | zero => exact ⟨rfl, rfl⟩
  | succ f ih =>
    match f, ih with
    | 0, _ => exact ⟨by decide, by decide⟩
    | g + 1, ih =>
      refine ⟨?_, ?_⟩
      · rw [c4_stepA g, ih.2]
        rfl
      · rw [c4_stepB g, ih.1]
        rfl

theorem c4_top (f : Nat) :
    resolve_bases (f + 3) c4State c4ClsA
      = Res.bind (Res.bind (resolve_bases (f + 2) c4State1 c4ClsB)
          (fun sub st => rbLoop (resolve_bases (f + 2)) (resolve_name (f + 2)) st
            c4ClsA (clsUnion (clsInsert c4ClsB []) sub) []))
          (fun bases st' => Res.ok bases
            { st' with rb_memo := ainsert st'.rb_memo c4ClsA.qname bases }) := rfl

theorem c4_mid (f : Nat) :
    resolve_bases (f + 2) c4State1 c4ClsB
      = Res.bind (Res.bind (resolve_bases (f + 1) c4State2 c4ClsA)
          (fun sub st => rbLoop (resolve_bases (f + 1)) (resolve_name (f + 1)) st
            c4ClsB (clsUnion (clsInsert c4ClsA []) sub) []))
          (fun bases st' => Res.ok bases
            { st' with rb_memo := ainsert st'.rb_memo c4ClsB.qname bases }) := rfl

/-- On the mutual-base cycle, `_resolve_bases(A)` diverges at every fuel. -/
theorem c4_div_all : ∀ f, resolve_bases f c4State c4ClsA = .div := by
  intro f
  match f with
  | 0 => rfl
  | 1 => decide
  | 2 => decide
  | f + 3 =>
    rw [c4_top f, c4_mid f, (c4_div2 (f + 1)).1]
    rfl

/-- C4 counterexample: for the registered classes `class A(B)` /
`class B(A)` (distinct names, so the same-simple-name skip does not apply),
`_resolve_bases(A)` does not terminate at any recursion depth — refuting
"terminates … also when the raw base-name graph contains cycles, e.g. two
classes naming each other as base". -/
theorem claim_C4_counterexample :
    ¬ ∃ f, resolve_bases f c4State c4ClsA ≠ .div := by
  rintro ⟨f, hf⟩
  exact hf (c4_div_all f)

/-- C4, amended: a base name equal to the class's own simple name is
skipped, so a class *all* of whose base names equal its own simple name
terminates immediately with the empty set (never containing itself) — this
is the cycle the code guards against, and the repository's
`test_same_name_bases_skipped` exercises it; but termination does not hold
for every registered class: two distinct classes naming each other as base
make `_resolve_bases` recurse without bound. -/
theorem claim_C4_amended :
    (∀ (f : Nat) (st : State) (c : ClassDef),
       (∀ n ∈ c.bases, n = pyDefName c.qname) →
       alookup st.rb_memo c.qname = none →
       resolve_bases (f + 1) st c
         = .ok [] { st with rb_memo := ainsert st.rb_memo c.qname [] }) ∧
    (∀ f, resolve_bases f c4State c4ClsA = .div) := by
  constructor
  · intro f st c hall hmemo
    have hloop : ∀ (names : List String) (acc : List ClassDef),
        (∀ n ∈ names, n = pyDefName c.qname) →
        rbLoop (resolve_bases f) (resolve_name f) st c acc names = .ok acc st := by
      intro names
      induction names with
      | nil => intro acc _; rfl
      | cons n rest ih =>
        intro acc h
        have hn : n = pyDefName c.qname := h n (List.mem_cons_self _ _)
        simp only [rbLoop, if_pos hn]
        exact ih acc (fun x hx => h x (List.mem_cons_of_mem _ hx))
    show resolve_bases (f + 1) st c = _
    simp only [resolve_bases, hmemo]
    rw [hloop c.bases [] hall]
    rfl
  · exact c4_div_all

/-- C4 witness: a pure self-base class from a fresh cache. -/
theorem claim_C4_witness :
    resolve_bases 1 (emptyState false) ⟨"s.A", ["A"], [], none⟩
      = .ok [] { emptyState false with
          rb_memo := ainsert (emptyState false).rb_memo "s.A" [] } :=
  claim_C4_amended.1 0 (emptyState false) ⟨"s.A", ["A"], [], none⟩
    (by decide) (by decide)

/-! ## Claim C5 — star-import resolution -/

def c5Sibling : ModuleDef := ⟨"pkg.sibling", "/src/pkg/sibling.py", []⟩

def c5ClassB : ClassDef := ⟨"pkg.sibling.B", [], ["run"], some c5Sibling⟩

/-- `pkg/__init__.py` does `from pkg.sibling import B`, exposing `B`. -/
def c5Pkg : ModuleDef :=
  ⟨"pkg", "/src/pkg/__init__.py", [⟨"pkg.sibling.B", some "B", true, false⟩]⟩

/-- `main.py` does `from pkg import *`. -/
def c5Main : ModuleDef := ⟨"main", "/src/main.py", [⟨"pkg", none, true, true⟩]⟩

def c5State : State :=
  { class_index := [("pkg.sibling.B", c5ClassB)]
    module_index := [("main", c5Main), ("pkg", c5Pkg), ("pkg.sibling", c5Sibling)]
    pathOf := [("pkg", "/src/pkg/__init__.py")] }

/-- The returned value of a successful call. -/
def resValue {α : Type} : Res α → Option α
  | .ok a _ => some a
  | _ => none

/-- C5, confirmed: (i) with `main` star-importing `pkg`, whose own import
facts bind `B` to `pkg.sibling.B`, `resolve_name("B", main, 'class')`
returns the `ClassDef` with qname `pkg.sibling.B` — the star import is
handled by lazily loading module `pkg` and re-resolving the unchanged name
there; (ii) `imports_name` is false for *every* name on a star import, so
star imports are never handled through the qualification predicate. -/
theorem claim_C5 :
    resValue (resolve_name 3 c5State "B" (some c5Main) "class")
        = some (some (.cls c5ClassB)) ∧
    ∀ (imp : Import) (name : String), imp.star_import = true →
      imp.imports_name name = false := by
  constructor
  · decide
  · intro imp name h
    simp [Import.imports_name, h]

/-- C5 witness: the star import of the scenario imports no name. -/
theorem claim_C5_witness :
    Import.imports_name ⟨"pkg", none, true, true⟩ "B" = false :=
  claim_C5.2 ⟨"pkg", none, true, true⟩ "B" rfl

/-! ## Claim C3 — `resolve_name`: cycle guard, memoization, termination

The remaining sections develop the termination argument for `resolve_name`:
every name the resolver can recurse on lives in a finite universe derived
from the initial name and the heads of the analyzable import records, every
module component comes from a finite universe of module qnames, and the
in-flight set of the recursion guard grows strictly along every recursive
chain — so the recursion depth is bounded by the number of distinct keys,
exactly as the spec's §5 argues. -/

/-! ### Splitting lemmas -/

theorem splitDotsAux_ne_nil (l : List Char) : splitDotsAux l ≠ [] := by
  induction l with
  | nil => simp [splitDotsAux]
  | cons c cs ih =>
    by_cases h : c = '.'
    · simp [splitDotsAux, h]
    · simp only [splitDotsAux, if_neg h]
      match hm : splitDotsAux cs with
      | [] => simp
      | s :: rest => simp

theorem splitDots_ne_nil (s : String) : splitDots s ≠ [] :=
  splitDotsAux_ne_nil s.data

theorem splitDotsAux_append_dot (xs ys : List Char) :
    splitDotsAux (xs ++ '.' :: ys) = splitDotsAux xs ++ splitDotsAux ys := by
  induction xs with
  | nil => simp [splitDotsAux]
  | cons c cs ih =>
    by_cases h : c = '.'
    · simp [splitDotsAux, h, ih]
    · simp only [List.cons_append, splitDotsAux, if_neg h]
      simp only [List.append_eq]
      rw [ih]
      match hm : splitDotsAux cs with
      | [] => exact absurd hm (splitDotsAux_ne_nil cs)
      | s :: rest => simp

theorem mem_splitDotsAux_no_dot (l : List Char) :
    ∀ s ∈ splitDotsAux l, '.' ∉ s.data := by
  induction l with
  | nil =>
    intro s hs
    simp [splitDotsAux] at hs
    simp [hs]
  | cons c cs ih =>
    intro s hs
    by_cases h : c = '.'
    · simp only [splitDotsAux, if_pos h] at hs
      rcases List.mem_cons.1 hs with h1 | h1
      · simp [h1]
      · exact ih s h1
    · simp only [splitDotsAux, if_neg h] at hs
      match hm : splitDotsAux cs with
      | [] => exact absurd hm (splitDotsAux_ne_nil cs)
      | t :: rest =>
        rw [hm] at hs
        rcases List.mem_cons.1 hs with h1 | h1
        · subst h1
          intro hmem
          rcases List.mem_cons.1 hmem with h2 | h2
          · exact h h2.symm
          · exact ih t (hm ▸ List.mem_cons_self t rest) h2
        · exact ih s (hm ▸ List.mem_cons_of_mem t h1)

theorem joinDots_cons_ne_nil (s : String) {xs : List String} (h : xs ≠ []) :
    joinDots (s :: xs) = s ++ "." ++ joinDots xs := by
  match xs with
  | [] => exact absurd rfl h
  | y :: ys => rfl

theorem data_append (s t : String) : (s ++ t).data = s.data ++ t.data := rfl

theorem data_mk (l : List Char) : (String.mk l).data = l := rfl

theorem string_data_ext {s t : String} (h : s.data = t.data) : s = t := by
  cases s with
  | mk d1 =>
    cases t with
    | mk d2 => exact congrArg String.mk h

theorem joinDots_splitDotsAux (l : List Char) :
    joinDots (splitDotsAux l) = String.mk l := by
  induction l with
  | nil => rfl
  | cons c cs ih =>
    by_cases h : c = '.'
    · subst h
      rw [show splitDotsAux ('.' :: cs) = "" :: splitDotsAux cs from rfl,
        joinDots_cons_ne_nil _ (splitDotsAux_ne_nil cs), ih]
      apply string_data_ext
      simp [data_append]
    · simp only [splitDotsAux, if_neg h]
      match hm : splitDotsAux cs with
      | [] => exact absurd hm (splitDotsAux_ne_nil cs)
      | s :: rest =>
        rw [hm] at ih
        match rest with
        | [] =>
          simp only [joinDots] at ih ⊢
          rw [ih]
        | t :: ts =>
          have hne : (t :: ts : List String) ≠ [] := by simp
          rw [joinDots_cons_ne_nil _ hne] at ih
          rw [joinDots_cons_ne_nil _ hne]
          have ihd := congrArg String.data ih
          simp only [data_append, data_mk] at ihd
          apply string_data_ext
          simp only [data_append, data_mk, List.cons_append]
          rw [ihd]

theorem joinDots_splitDots (s : String) : joinDots (splitDots s) = s := by
  have := joinDots_splitDotsAux s.data
  rwa [show String.mk s.data = s from rfl] at this

/-! ### Decomposition lemmas for the qname utilities -/

theorem drop_append_cons {α : Type} (xs : List α) (y : α) (r : List α) :
    (xs ++ y :: r).drop (xs.length + 1) = r := by
  induction xs with
  | nil => rfl
  | cons x xs ih => simp

/-- A qualified name is the qualifier itself or extends it through a dot. -/
theorem qualified_decomp {t l : String}
    (hq : qname_qualified_by t l = true) (hl : l ≠ "") :
    t = l ∨ ∃ r, t.data = l.data ++ '.' :: r := by
  unfold qname_qualified_by at hq
  rw [if_neg hl] at hq
  rcases Bool.or_eq_true_iff.1 hq with h | h
  · exact .inl (of_decide_eq_true h)
  · right
    unfold pyStartsWith at h
    obtain ⟨u, hu⟩ := (List.isPrefixOf_iff_prefix.1 h)
    refine ⟨u, ?_⟩
    rw [← hu, data_append]
    simp [List.append_assoc]

theorem data_prefix_of_qualified {t l : String}
    (hq : qname_qualified_by t l = true) (hl : l ≠ "") :
    l.data <+: t.data := by
  rcases qualified_decomp hq hl with h | ⟨r, hr⟩
  · exact h ▸ List.prefix_refl _
  · exact ⟨'.' :: r, hr.symm⟩

theorem qualified_ne_empty {t l : String}
    (hq : qname_qualified_by t l = true) (hl : l ≠ "") : t ≠ "" := by
  rcases qualified_decomp hq hl with h | ⟨r, hr⟩
  · exact h ▸ hl
  · intro he
    rw [he] at hr
    exact absurd hr.symm (by simp)

theorem qname_drop_self {l : String} (hl : l ≠ "") : qname_drop l l = "" := by
  have hq : qname_qualified_by l l = true := by
    unfold qname_qualified_by
    rw [if_neg hl]
    simp
  unfold qname_drop
  rw [if_pos ⟨hq, hl⟩]
  exact pyDrop_of_length_le l (Nat.le_succ _)

theorem qname_drop_of_data {t l : String} {r : List Char}
    (hd : t.data = l.data ++ '.' :: r) (hl : l ≠ "") :
    qname_drop t l = String.mk r := by
  have hpre : pyStartsWith t (l ++ ".") = true := by
    unfold pyStartsWith
    rw [List.isPrefixOf_iff_prefix]
    refine ⟨r, ?_⟩
    rw [data_append, hd]
    simp
  have hq : qname_qualified_by t l = true := by
    unfold qname_qualified_by
    rw [if_neg hl]
    simp [hpre]
  unfold qname_drop
  rw [if_pos ⟨hq, hl⟩]
  unfold pyDrop
  rw [hd]
  rw [show l.length = l.data.length from rfl, drop_append_cons]

/-! ### `qname_merge` collapses a qualified name onto its qualifier -/

theorem pyTakeLast_all {α : Type} (l : List α) {n : Nat} (h : l.length ≤ n) :
    pyTakeLast l n = l := by
  unfold pyTakeLast
  rw [Nat.sub_eq_zero_of_le h]
  rfl

theorem qnameMergeLoop_skip (parts1 parts2 : List String) (L : Nat) :
    ∀ j, (∀ i, 0 < i → i ≤ j →
      pyTakeLast parts1 (L + i) ≠ parts2.take (L + i)) →
    qnameMergeLoop parts1 parts2 (L + j) = qnameMergeLoop parts1 parts2 L := by
  intro j
  induction j with
  | zero => intro _; rfl
  | succ j ih =>
    intro h
    rw [show L + (j + 1) = (L + j) + 1 from rfl]
    rw [qnameMergeLoop, if_neg]
    · exact ih (fun i h1 h2 => h i h1 (Nat.le_succ_of_le h2))
    · exact h (j + 1) (Nat.succ_pos j) (Nat.le_refl _)

theorem qname_merge_of_qualified {l t : String}
    (hq : qname_qualified_by t l = true) (hl : l ≠ "") :
    qname_merge l t = t := by
  have htne : t ≠ "" := qualified_ne_empty hq hl
  unfold qname_merge
  rw [if_neg (by simp [hl, htne])]
  rcases qualified_decomp hq hl with heq | ⟨r, hr⟩
  · -- `t = l`: the first overlap check (full overlap) succeeds
    subst heq
    have hlen : 0 < (splitDots t).length :=
      List.length_pos.2 (splitDots_ne_nil t)
    obtain ⟨n, hn⟩ : ∃ n, (splitDots t).length = n + 1 :=
      ⟨(splitDots t).length - 1, by omega⟩
    rw [hn, qnameMergeLoop, if_pos]
    · show joinDots ((splitDots t) ++ (splitDots t).drop (n + 1)) = t
      rw [← hn, List.drop_length, List.append_nil, joinDots_splitDots]
    · rw [← hn, pyTakeLast_all _ (Nat.le_refl _), List.take_length]
  · -- `t = l ++ "." ++ r`: overlap checks above `|splitDots l|` fail on
    -- length grounds, and the check at `|splitDots l|` succeeds
    have hsplit : splitDots t = splitDots l ++ splitDotsAux r := by
      unfold splitDots
      rw [hr, splitDotsAux_append_dot]
    have hL : 0 < (splitDots l).length := List.length_pos.2 (splitDots_ne_nil l)
    have hR : 0 < (splitDotsAux r).length :=
      List.length_pos.2 (splitDotsAux_ne_nil r)
    set L := (splitDots l).length with hLdef
    have hlen2 : (splitDots t).length = L + (splitDotsAux r).length := by
      rw [hsplit, List.length_append]
    have hskip : ∀ i, 0 < i → i ≤ (splitDotsAux r).length →
        pyTakeLast (splitDots l) (L + i) ≠ (splitDots t).take (L + i) := by
      intro i hi hile heq
      have h1 : (pyTakeLast (splitDots l) (L + i)).length = L := by
        rw [pyTakeLast_all _ (by omega)]
      have h2 : ((splitDots t).take (L + i)).length = L + i := by
        rw [List.length_take]
        omega
      rw [heq, h2] at h1
      omega
    have hLj : (splitDots t).length = L + (splitDotsAux r).length := hlen2
    rw [hLj, qnameMergeLoop_skip _ _ _ _ hskip]
    obtain ⟨n, hn⟩ : ∃ n, L = n + 1 := ⟨L - 1, by omega⟩
    rw [hn, qnameMergeLoop, if_pos]
    · show joinDots ((splitDots l) ++ (splitDots t).drop (n + 1)) = t
      rw [← hn, hLdef, hsplit, List.drop_left, ← hsplit, joinDots_splitDots]
    · rw [← hn, hLdef, pyTakeLast_all _ (Nat.le_refl _), hsplit,
        List.take_left]

/-! ### `replaceFirst` on a prefix occurrence -/

theorem replaceFirst_prefix_eq {s pat : String} (rep : String)
    (h : pat.data <+: s.data) :
    replaceFirst s pat rep = rep ++ pyDrop s pat.length := by
  unfold replaceFirst replaceFirstAux
  match hs : s.data with
  | [] =>
    have : pat.data = [] := List.prefix_nil.1 (hs ▸ h)
    rw [this]
    simp only [if_pos rfl]
    apply string_data_ext
    simp [data_append, data_mk, pyDrop, this, hs]
  | c :: cs =>
    have hpre : pat.data.isPrefixOf (c :: cs) = true :=
      List.isPrefixOf_iff_prefix.2 (hs ▸ h)
    show String.mk (if pat.data.isPrefixOf (c :: cs) = true then
        rep.data ++ List.drop pat.data.length (c :: cs)
      else c :: replaceFirstAux rep.data pat.data cs) = rep ++ pyDrop s pat.length
    rw [if_pos hpre]
    apply string_data_ext
    simp only [data_append, data_mk, pyDrop, hs]
    rfl

/-! ### Tail/head decomposition of a dotted name -/

theorem joinDots_append_singleton (xs : List String) (y : String)
    (h : xs ≠ []) : joinDots (xs ++ [y]) = joinDots xs ++ "." ++ y := by
  induction xs with
  | nil => exact absurd rfl h
  | cons x xs ih =>
    match xs with
    | [] => rfl
    | z :: zs =>
      rw [List.cons_append, joinDots_cons_ne_nil _ (by simp),
        joinDots_cons_ne_nil _ (by simp), ih (by simp)]
      apply string_data_ext
      simp [data_append, List.append_assoc]

theorem qname_tail_head_decomp {imp mt h : String}
    (ht : qname_tail imp = some mt) (hh : qname_head imp = some h) :
    imp.data = mt.data ++ '.' :: h.data ∧ '.' ∉ h.data ∧ mt ≠ "" := by
  unfold qname_tail at ht
  unfold qname_head at hh
  by_cases h1 : joinDots (splitDots imp).dropLast = ""
  · simp [h1] at ht
  · simp only [h1, if_neg, if_false] at ht
    by_cases h2 : ((splitDots imp).getLast?).getD "" = ""
    · simp [h2] at hh
    · simp only [h2, if_neg, if_false] at hh
      cases ht
      cases hh
      have hne : splitDots imp ≠ [] := splitDots_ne_nil imp
      have hlast : (splitDots imp).getLast? = some ((splitDots imp).getLast hne) :=
        List.getLast?_eq_getLast _ hne
      have hdl : (splitDots imp).dropLast ≠ [] := by
        intro hd
        exact h1 (by rw [hd]; rfl)
      have hdecomp : (splitDots imp).dropLast ++ [(splitDots imp).getLast hne]
          = splitDots imp := List.dropLast_append_getLast hne
      have himp : imp = joinDots (splitDots imp).dropLast ++ "." ++
          ((splitDots imp).getLast hne) := by
        conv_lhs => rw [← joinDots_splitDots imp, ← hdecomp]
        exact joinDots_append_singleton _ _ hdl
      refine ⟨?_, ?_, h1⟩
      · rw [hlast]
        simp only [Option.getD_some]
        conv_lhs => rw [himp]
        simp [data_append]
      · rw [hlast]
        simp only [Option.getD_some]
        exact mem_splitDotsAux_no_dot imp.data _
          (List.getLast_mem hne)

/-! ### The name universe of `resolve_name`

Every name a (well-formed) recursive `resolve_name` call can be invoked
with is either a dotted tail of the original name (`InT`), a final
segment of some import's imported name (a *head*), or a head followed by
`"."` and a dotted tail (`InNB`).  The three closure lemmas below mirror
the three shapes of recursive call in the import loop. -/

/-- Splitting a character list at a dot that ends a dot-free block. -/
theorem prefix_dot_cases :
    ∀ (hd l r t' : List Char), l ++ '.' :: r = hd ++ '.' :: t' → '.' ∉ hd →
    (l = hd ∧ r = t') ∨ ∃ l₂, l = hd ++ '.' :: l₂ ∧ t' = l₂ ++ '.' :: r := by
  intro hd
  induction hd with
  | nil =>
    intro l r t' heq _
    cases l with
    | nil =>
      simp only [List.nil_append, List.cons.injEq] at heq
      exact .inl ⟨rfl, heq.2⟩
    | cons c cs =>
      simp only [List.cons_append, List.nil_append, List.cons.injEq] at heq
      exact .inr ⟨cs, by simp [heq.1], heq.2.symm⟩
  | cons a hd ih =>
    intro l r t' heq hnd
    cases l with
    | nil =>
      simp only [List.nil_append, List.cons_append, List.cons.injEq] at heq
      have : ('.' : Char) ∈ a :: hd := by
        rw [heq.1]; exact List.mem_cons_self a hd
      exact absurd this hnd
    | cons c cs =>
      simp only [List.cons_append, List.cons.injEq] at heq
      have hnd' : ('.' : Char) ∉ hd := fun hm => hnd (List.mem_cons_of_mem a hm)
      rcases ih cs r t' heq.2 hnd' with ⟨h1, h2⟩ | ⟨l₂, h1, h2⟩
      · exact .inl ⟨by rw [heq.1, h1], h2⟩
      · exact .inr ⟨l₂, by simp [heq.1, h1], h2⟩

/-- `s` is the empty string or a dotted tail of the name whose segments
are `P0`. -/
def InT (P0 : List String) (s : String) : Prop :=
  s = "" ∨ ∃ k, k < P0.length ∧ splitDots s = P0.drop k

/-- Dropping a dot-aligned prefix of a dotted tail yields a dotted tail. -/
theorem InT_data_drop {P0 : List String} {t : String} (h : InT P0 t)
    {xs r : List Char} (hd : t.data = xs ++ '.' :: r) :
    InT P0 (String.mk r) := by
  rcases h with h | ⟨k, hk, hs⟩
  · rw [h] at hd
    exact absurd hd.symm (by simp)
  · right
    have hsp : splitDots t = splitDotsAux xs ++ splitDotsAux r := by
      unfold splitDots
      rw [hd, splitDotsAux_append_dot]
    have hR : 0 < (splitDotsAux r).length :=
      List.length_pos.2 (splitDotsAux_ne_nil r)
    have hlen : P0.length - k =
        (splitDotsAux xs).length + (splitDotsAux r).length := by
      rw [← List.length_drop, ← hs, hsp, List.length_append]
    refine ⟨k + (splitDotsAux xs).length, by omega, ?_⟩
    show splitDotsAux r = _
    rw [← List.drop_drop, ← hs, hsp, List.drop_left]

/-- Heads are nonempty, dot-free segments. -/
def HeadOK (H : List String) : Prop :=
  ∀ h ∈ H, h ≠ "" ∧ ('.' : Char) ∉ h.data

/-- The name universe: a dotted tail, a head, or a head dotted with a
tail. -/
def InNB (P0 H : List String) (s : String) : Prop :=
  InT P0 s ∨ s ∈ H ∨ ∃ h ∈ H, ∃ t, InT P0 t ∧ s = h ++ "." ++ t

theorem InNB_of_InT {P0 H : List String} {s : String} (h : InT P0 s) :
    InNB P0 H s := .inl h

theorem InT_init (name : String) : InT (splitDots name) name :=
  .inr ⟨0, List.length_pos.2 (splitDots_ne_nil name), by simp⟩

/-- Cutting a universe name after a dot-terminated prefix leaves a dotted
tail. -/
theorem InNB_data_tail {P0 H : List String} (Hok : HeadOK H) {t : String}
    (ht : InNB P0 H t) {ld r : List Char}
    (hd : t.data = ld ++ '.' :: r) : InT P0 (String.mk r) := by
  rcases ht with h | hH | ⟨h, hH, t', ht', hteq⟩
  · exact InT_data_drop h hd
  · have : ('.' : Char) ∈ t.data := by
      rw [hd]; exact List.mem_append_right _ (List.mem_cons_self _ _)
    exact absurd this (Hok t hH).2
  · have hdt : t.data = h.data ++ '.' :: t'.data := by
      rw [hteq]; simp [data_append]
    have heq : ld ++ '.' :: r = h.data ++ '.' :: t'.data := by
      rw [← hd, ← hdt]
    rcases prefix_dot_cases h.data ld r t'.data heq (Hok h hH).2 with
      ⟨_, h2⟩ | ⟨l₂, _, h2⟩
    · have : String.mk r = t' := string_data_ext (by rw [data_mk, h2])
      rw [this]; exact ht'
    · exact InT_data_drop ht' h2

/-- Closure shape 1 (plain import / second from-import interpretation):
`qname_drop name local_name` is a dotted tail. -/
theorem InNB_qname_drop {P0 H : List String} (Hok : HeadOK H) {t l : String}
    (ht : InNB P0 H t) (hq : qname_qualified_by t l = true) (hl : l ≠ "") :
    InT P0 (qname_drop t l) := by
  rcases qualified_decomp hq hl with heq | ⟨r, hr⟩
  · rw [heq, qname_drop_self hl]
    exact .inl rfl
  · rw [qname_drop_of_data hr hl]
    exact InNB_data_tail Hok ht hr

/-- Closure shape 2 (first from-import interpretation): rebasing the
name onto the imported name and dropping the imported name's tail yields
`head`, or `head ++ "." ++ (a dotted tail)`. -/
theorem InNB_branch1 {P0 H : List String} (Hok : HeadOK H)
    {t l imported mt h : String}
    (ht : InNB P0 H t) (hq : qname_qualified_by t l = true) (hl : l ≠ "")
    (hmt : qname_tail imported = some mt) (hh : qname_head imported = some h)
    (hH : h ∈ H) :
    InNB P0 H (qname_drop (replaceFirst (qname_merge l t) l imported) mt) := by
  obtain ⟨hidat, hnd, hmtne⟩ := qname_tail_head_decomp hmt hh
  rw [qname_merge_of_qualified hq hl,
      replaceFirst_prefix_eq imported (data_prefix_of_qualified hq hl)]
  have hdat : (imported ++ pyDrop t l.length).data
      = mt.data ++ '.' :: (h.data ++ t.data.drop l.data.length) := by
    simp [data_append, hidat, pyDrop, List.append_assoc]
  rw [qname_drop_of_data hdat hmtne]
  rcases qualified_decomp hq hl with heq | ⟨r, hr⟩
  · -- name = local name: the dropped remainder is empty, result is the head
    have : String.mk (h.data ++ t.data.drop l.data.length) = h := by
      apply string_data_ext
      rw [data_mk, heq, List.drop_length, List.append_nil]
    rw [this]
    exact .inr (.inl hH)
  · -- result is `head ++ "." ++ (tail after the local name)`
    have hdrop : t.data.drop l.data.length = '.' :: r := by
      rw [hr, List.drop_left]
    refine .inr (.inr ⟨h, hH, String.mk r, InNB_data_tail Hok ht hr, ?_⟩)
    apply string_data_ext
    rw [data_mk, hdrop]
    simp [data_append]

/-! ### The finite key universe and the two termination measures -/

/-- The dotted tails of the name whose segments are `P0` (with `""`). -/
def tailsList (P0 : List String) : List String :=
  "" :: (List.range P0.length).map (fun k => joinDots (P0.drop k))

/-- An enumeration of the whole name universe. -/
def nbList (P0 H : List String) : List String :=
  tailsList P0 ++ H ++
    H.flatMap (fun h => (tailsList P0).map (fun t => h ++ "." ++ t))

theorem mem_tailsList_of_InT {P0 : List String} {s : String}
    (h : InT P0 s) : s ∈ tailsList P0 := by
  rcases h with h | ⟨k, hk, hs⟩
  · rw [h]; exact List.mem_cons_self _ _
  · refine List.mem_cons_of_mem _ (List.mem_map.2 ⟨k, List.mem_range.2 hk, ?_⟩)
    rw [← hs, joinDots_splitDots]

theorem mem_nbList_of_InNB {P0 H : List String} {s : String}
    (h : InNB P0 H s) : s ∈ nbList P0 H := by
  rcases h with h | hH | ⟨hh, hH, t, ht, hteq⟩
  · exact List.mem_append_left _
      (List.mem_append_left _ (mem_tailsList_of_InT h))
  · exact List.mem_append_left _ (List.mem_append_right _ hH)
  · refine List.mem_append_right _ (List.mem_flatMap.2 ⟨hh, hH, ?_⟩)
    exact List.mem_map.2 ⟨t, mem_tailsList_of_InT ht, hteq.symm⟩

/-- Every memo key a recursive call (at kind `kind`) can carry. -/
def keyList (P0 H MN : List String) (kind : String) : List ResolveKey :=
  (nbList P0 H).flatMap
    (fun n => (none :: MN.map some).map (fun mq => ⟨n, mq, kind⟩))

/-- Number of universe keys not currently in flight: every well-formed
recursive `resolve_name` call strictly decreases this. -/
def kcount (P0 H MN : List String) (kind : String) (st : State) : Nat :=
  (keyList P0 H MN kind).countP (fun k => decide (¬ k ∈ st.resolve_inflight))

/-- Number of known module paths not yet indexed and not broken: every
recursive `index_module` call strictly decreases this. -/
def imeasure (st : State) : Nat :=
  st.pathOf.countP (fun pr =>
    decide (alookup st.module_index pr.1 = none ∧ ¬ pr.1 ∈ st.broken))

/-- Strict `countP` decrease from one pointwise-dominated flip. -/
theorem countP_lt_of {α : Type} (l : List α) (p q : α → Bool) (a : α)
    (ha : a ∈ l) (hpa : p a = false) (hqa : q a = true)
    (h : ∀ b ∈ l, p b = true → q b = true) :
    l.countP p < l.countP q := by
  induction l with
  | nil => cases ha
  | cons x xs ih =>
    rw [List.countP_cons, List.countP_cons]
    rcases List.mem_cons.1 ha with rfl | hmem
    · have hle : xs.countP p ≤ xs.countP q :=
        List.countP_mono_left (fun b hb => h b (List.mem_cons_of_mem _ hb))
      rw [hpa, hqa]
      show xs.countP p + 0 < xs.countP q + 1
      omega
    · have hx := h x (List.mem_cons_self _ _)
      have hlt := ih hmem (fun b hb => h b (List.mem_cons_of_mem _ hb))
      cases hpx : p x with
      | false =>
        cases hqx : q x with
        | false =>
          show xs.countP p + 0 < xs.countP q + 0
          omega
        | true =>
          show xs.countP p + 0 < xs.countP q + 1
          omega
      | true =>
        rw [hx hpx]
        show xs.countP p + 1 < xs.countP q + 1
        omega

theorem kcount_push {P0 H MN : List String} {kind : String} {st : State}
    {key : ResolveKey} (hk : key ∈ keyList P0 H MN kind)
    (hni : key ∉ st.resolve_inflight) :
    kcount P0 H MN kind
      { st with resolve_inflight := key :: st.resolve_inflight }
      < kcount P0 H MN kind st := by
  refine countP_lt_of _ _ _ key hk ?_ (by simp [hni]) ?_
  · simp
  · intro b _ hb
    simp only [decide_eq_true_eq] at hb ⊢
    exact fun hmem => hb (List.mem_cons_of_mem _ hmem)

theorem kcount_pos {P0 H MN : List String} {kind : String} {st : State}
    {key : ResolveKey} (hk : key ∈ keyList P0 H MN kind)
    (hni : key ∉ st.resolve_inflight) :
    0 < kcount P0 H MN kind st :=
  List.countP_pos_iff.2 ⟨key, hk, by simp [hni]⟩

theorem kcount_congr {P0 H MN : List String} {kind : String} {st st' : State}
    (h : st'.resolve_inflight = st.resolve_inflight) :
    kcount P0 H MN kind st' = kcount P0 H MN kind st := by
  unfold kcount
  rw [h]

/-! ### Well-formed analyzer states and the evolution relation -/

/-- Per-import sanity: an aliased name is never the empty string, and a
(non-star) from-import's imported name has a final segment, drawn from
`H`.  Real states satisfy this: local names are Python identifiers and
the imported names are dotted identifier paths. -/
def ImportOK (H : List String) (imp : Import) : Prop :=
  imp.local_name ≠ some "" ∧
  (imp.import_from = false ∨ imp.star_import = true ∨
    (qname_head imp.imported_name ≠ none ∧
      (qname_head imp.imported_name).getD "" ∈ H))

def ImportsOK (H : List String) (l : List Import) : Prop :=
  ∀ imp ∈ l, ImportOK H imp

/-- The import list a disk entry would contribute when indexed. -/
def diskImports : DiskEntry → List Import
  | .parseError => []
  | .facts raws _ _ =>
    match buildImports raws with
    | .ok imps => imps
    | .error _ => []

/-- Well-formed analyzer state: known paths are named in `MN`, indexed
modules are keyed by their own qname with sane imports, and the disk only
yields sane imports. -/
def StOK (H MN : List String) (st : State) : Prop :=
  (∀ pr ∈ st.pathOf, pr.1 ∈ MN) ∧
  (∀ pr ∈ st.module_index,
    pr.1 ∈ MN ∧ pr.2.qname = pr.1 ∧ ImportsOK H pr.2.imports) ∧
  (∀ pr ∈ st.disk, ImportsOK H (diskImports pr.2))

/-- Sanity of the `module` argument of a `resolve_name` call. -/
def ModArgOK (H MN : List String) (mo : Option ModuleDef) : Prop :=
  ∀ m ∈ mo.toList, m.qname ∈ MN ∧ ImportsOK H m.imports

/-- How the state evolves across a completed (sub-)call: paths, disk,
in-flight keys and configuration are untouched; indexed modules and
broken marks only grow. -/
def Evol (st st' : State) : Prop :=
  st'.pathOf = st.pathOf ∧ st'.disk = st.disk ∧
  st'.resolve_inflight = st.resolve_inflight ∧
  st'.follow_imports = st.follow_imports ∧ st'.py2 = st.py2 ∧
  st'.includedPrefixes = st.includedPrefixes ∧
  st'.excludedPrefixes = st.excludedPrefixes ∧
  (∀ n, (alookup st.module_index n).isSome →
    (alookup st'.module_index n).isSome) ∧
  (∀ n, n ∈ st.broken → n ∈ st'.broken)

theorem Evol_refl (st : State) : Evol st st :=
  ⟨rfl, rfl, rfl, rfl, rfl, rfl, rfl, fun _ h => h, fun _ h => h⟩

theorem Evol_trans {s1 s2 s3 : State} (h1 : Evol s1 s2) (h2 : Evol s2 s3) :
    Evol s1 s3 := by
  obtain ⟨a1, b1, c1, d1, e1, f1, g1, m1, k1⟩ := h1
  obtain ⟨a2, b2, c2, d2, e2, f2, g2, m2, k2⟩ := h2
  exact ⟨a2.trans a1, b2.trans b1, c2.trans c1, d2.trans d1, e2.trans e1,
    f2.trans f1, g2.trans g1, fun n h => m2 n (m1 n h), fun n h => k2 n (k1 n h)⟩

theorem imeasure_le_of_Evol {st st' : State} (h : Evol st st') :
    imeasure st' ≤ imeasure st := by
  obtain ⟨hp, _, _, _, _, _, _, hm, hb⟩ := h
  unfold imeasure
  rw [hp]
  refine List.countP_mono_left ?_
  intro pr _ hpr
  simp only [decide_eq_true_eq] at hpr ⊢
  refine ⟨?_, fun hmem => hpr.2 (hb _ hmem)⟩
  cases hcur : alookup st.module_index pr.1 with
  | none => rfl
  | some m =>
    have := hm pr.1 (by rw [hcur]; rfl)
    rw [hpr.1] at this
    cases this

theorem imeasure_lt_of_register {st st' : State} (hEv : Evol st st')
    {name path : String} (hmem : (name, path) ∈ st.pathOf)
    (h1 : alookup st.module_index name = none) (h2 : name ∉ st.broken)
    (h3 : (alookup st'.module_index name).isSome) :
    imeasure st' < imeasure st := by
  obtain ⟨hp, _, _, _, _, _, _, hm, hb⟩ := hEv
  unfold imeasure
  rw [hp]
  refine countP_lt_of _ _ _ (name, path) hmem ?_ (by simp [h1, h2]) ?_
  · simp only [decide_eq_false_iff_not, not_and]
    intro hnone
    rw [hnone] at h3
    cases h3
  · intro b _ hbtrue
    simp only [decide_eq_true_eq] at hbtrue ⊢
    refine ⟨?_, fun hmem' => hbtrue.2 (hb _ hmem')⟩
    cases hcur : alookup st.module_index b.1 with
    | none => rfl
    | some m =>
      have := hm b.1 (by rw [hcur]; rfl)
      rw [hbtrue.1] at this
      cases this

theorem kcount_le_of_Evol {P0 H MN : List String} {kind : String}
    {st st' : State} (h : Evol st st') :
    kcount P0 H MN kind st' = kcount P0 H MN kind st :=
  kcount_congr h.2.2.1

/-- `StOK` only reads `pathOf`, `module_index` and `disk`. -/
theorem StOK_congr {H MN : List String} {st st' : State}
    (hp : st'.pathOf = st.pathOf) (hm : st'.module_index = st.module_index)
    (hd : st'.disk = st.disk) (h : StOK H MN st) : StOK H MN st' := by
  obtain ⟨h1, h2, h3⟩ := h
  exact ⟨by rw [hp]; exact h1, by rw [hm]; exact h2, by rw [hd]; exact h3⟩

/-! ### Postconditions of embedded stateful calls -/

/-- `r` does not diverge, and any completed outcome evolves the state,
keeps it well-formed, and (on normal return) satisfies `Q`. -/
def PostOK {α : Type} (H MN : List String) (st : State) (r : Res α)
    (Q : α → State → Prop) : Prop :=
  r ≠ .div ∧
  (∀ e st', r = .thrown e st' → Evol st st' ∧ StOK H MN st') ∧
  (∀ a st', r = .ok a st' → Evol st st' ∧ StOK H MN st' ∧ Q a st')

theorem PostOK_ok {α : Type} {H MN : List String} {st st' : State} {a : α}
    {Q : α → State → Prop} (hEv : Evol st st') (hok : StOK H MN st')
    (hq : Q a st') : PostOK H MN st (.ok a st') Q := by
  refine ⟨by simp, ?_, ?_⟩
  · intro e s h
    cases h
  · intro b s h
    cases h
    exact ⟨hEv, hok, hq⟩

theorem PostOK_thrown {α : Type} {H MN : List String} {st st' : State}
    {e : PyExc} {Q : α → State → Prop} (hEv : Evol st st')
    (hok : StOK H MN st') : PostOK H MN st (Res.thrown e st' : Res α) Q := by
  refine ⟨by simp, ?_, ?_⟩
  · intro e' s h
    cases h
    exact ⟨hEv, hok⟩
  · intro b s h
    cases h

theorem PostOK_bind {α β : Type} {H MN : List String} {st : State}
    {r : Res α} {f : α → State → Res β} {Q : α → State → Prop}
    {Q' : β → State → Prop} (h1 : PostOK H MN st r Q)
    (h2 : ∀ a st', r = .ok a st' → Evol st st' → StOK H MN st' → Q a st' →
      PostOK H MN st' (f a st') Q') :
    PostOK H MN st (r.bind f) Q' := by
  match r, h1 with
  | .div, ⟨hd, _, _⟩ => exact absurd rfl hd
  | .thrown e s, ⟨_, ht, _⟩ =>
    have := ht e s rfl
    exact PostOK_thrown this.1 this.2
  | .ok a s, ⟨_, _, hk⟩ =>
    obtain ⟨hEv, hok, hq⟩ := hk a s rfl
    obtain ⟨nd, t', k'⟩ := h2 a s rfl hEv hok hq
    refine ⟨nd, ?_, ?_⟩
    · intro e st' heq
      obtain ⟨e2, o2⟩ := t' e st' heq
      exact ⟨Evol_trans hEv e2, o2⟩
    · intro b st' heq
      obtain ⟨e2, o2, q2⟩ := k' b st' heq
      exact ⟨Evol_trans hEv e2, o2, q2⟩

theorem PostOK_orElse {H MN : List String} {st : State}
    {r : Res (Option PyDef)} {k : State → Res (Option PyDef)}
    (h1 : PostOK H MN st r (fun _ _ => True))
    (h2 : ∀ st', r = .ok none st' → Evol st st' → StOK H MN st' →
      PostOK H MN st' (k st') (fun _ _ => True)) :
    PostOK H MN st (Res.orElse r k) (fun _ _ => True) := by
  match r, h1 with
  | .div, ⟨hd, _, _⟩ => exact absurd rfl hd
  | .thrown e s, ⟨_, ht, _⟩ =>
    have := ht e s rfl
    exact PostOK_thrown this.1 this.2
  | .ok (some df) s, ⟨_, _, hk⟩ =>
    obtain ⟨hEv, hok, _⟩ := hk _ s rfl
    exact PostOK_ok hEv hok trivial
  | .ok none s, ⟨_, _, hk⟩ =>
    obtain ⟨hEv, hok, _⟩ := hk _ s rfl
    obtain ⟨nd, t', k'⟩ := h2 s rfl hEv hok
    refine ⟨nd, ?_, ?_⟩
    · intro e st' heq
      obtain ⟨e2, o2⟩ := t' e st' heq
      exact ⟨Evol_trans hEv e2, o2⟩
    · intro b st' heq
      obtain ⟨e2, o2, _⟩ := k' b st' heq
      exact ⟨Evol_trans hEv e2, o2, trivial⟩

theorem PostOK_triv {α : Type} {H MN : List String} {st : State}
    {r : Res α} {Q : α → State → Prop} (h : PostOK H MN st r Q) :
    PostOK H MN st r (fun _ _ => True) := by
  obtain ⟨hd, ht, hk⟩ := h
  refine ⟨hd, ht, ?_⟩
  intro a s heq
  obtain ⟨e2, o2, _⟩ := hk a s heq
  exact ⟨e2, o2, trivial⟩

/-- `PostOK_bind` specialised to trivial postconditions, for use when the
intermediate postcondition cannot be inferred. -/
theorem PostOK_seq {α β : Type} {H MN : List String} {st : State}
    {r : Res α} {f : α → State → Res β}
    (h1 : PostOK H MN st r (fun _ _ => True))
    (h2 : ∀ a st', r = .ok a st' → Evol st st' → StOK H MN st' →
      PostOK H MN st' (f a st') (fun _ _ => True)) :
    PostOK H MN st (r.bind f) (fun _ _ => True) :=
  PostOK_bind h1 (fun a st' heq hEv hok _ => h2 a st' heq hEv hok)

theorem PostOK_weaken {α : Type} {H MN : List String} {st st' : State}
    {r : Res α} {Q : α → State → Prop} (hEv : Evol st st')
    (h : PostOK H MN st' r Q) : PostOK H MN st r Q := by
  obtain ⟨hd, ht, hk⟩ := h
  refine ⟨hd, ?_, ?_⟩
  · intro e s heq
    obtain ⟨e2, o2⟩ := ht e s heq
    exact ⟨Evol_trans hEv e2, o2⟩
  · intro a s heq
    obtain ⟨e2, o2, q2⟩ := hk a s heq
    exact ⟨Evol_trans hEv e2, o2, q2⟩

/-! ### The indexer's state footprint -/

theorem mem_ainsert {κ β : Type} [DecidableEq κ] {l : List (κ × β)}
    {k : κ} {v : β} {pr : κ × β} (h : pr ∈ ainsert l k v) :
    pr = (k, v) ∨ pr ∈ l := by
  induction l with
  | nil =>
    simp only [ainsert, List.mem_singleton] at h
    exact .inl h
  | cons hd tl ih =>
    obtain ⟨k', v'⟩ := hd
    by_cases h0 : k' = k
    · simp only [ainsert, if_pos h0] at h
      rcases List.mem_cons.1 h with h | h
      · exact .inl h
      · exact .inr (List.mem_cons_of_mem _ h)
    · simp only [ainsert, if_neg h0] at h
      rcases List.mem_cons.1 h with h | h
      · exact .inr (h ▸ List.mem_cons_self _ _)
      · rcases ih h with h | h
        · exact .inl h
        · exact .inr (List.mem_cons_of_mem _ h)

theorem alookup_ainsert_isSome {κ β : Type} [DecidableEq κ]
    (l : List (κ × β)) (k k' : κ) (v : β) (h : (alookup l k').isSome) :
    (alookup (ainsert l k v) k').isSome := by
  by_cases hk : k' = k
  · subst hk
    rw [alookup_ainsert_self]
    rfl
  · rw [alookup_ainsert_ne _ _ _ _ hk]
    exact h

/-- The state fields that class/function/parameter registration leaves
untouched. -/
def coreSt (st : State) : List (String × ModuleDef) × List String ×
    List (String × String) × List (String × DiskEntry) × List ResolveKey ×
    Bool × Bool × List String × List String :=
  (st.module_index, st.broken, st.pathOf, st.disk, st.resolve_inflight,
   st.follow_imports, st.py2, st.includedPrefixes, st.excludedPrefixes)

theorem coreSt_register_class (st : State) (c : ClassDef) :
    coreSt (register_class st c) = coreSt st := rfl

theorem coreSt_register_function (st : State) (f : FunctionDef) :
    coreSt (register_function st f) = coreSt st := rfl

theorem coreSt_foldl {β : Type} {f : State → β → State}
    (hf : ∀ s b, coreSt (f s b) = coreSt s) (l : List β) :
    ∀ st : State, coreSt (l.foldl f st) = coreSt st := by
  induction l with
  | nil => intro st; rfl
  | cons b t ih =>
    intro st
    rw [List.foldl_cons, ih, hf]

theorem of_coreSt_eq {st st' : State} (h : coreSt st' = coreSt st) :
    st'.module_index = st.module_index ∧ st'.broken = st.broken ∧
    st'.pathOf = st.pathOf ∧ st'.disk = st.disk ∧
    st'.resolve_inflight = st.resolve_inflight ∧
    st'.follow_imports = st.follow_imports ∧ st'.py2 = st.py2 ∧
    st'.includedPrefixes = st.includedPrefixes ∧
    st'.excludedPrefixes = st.excludedPrefixes := by
  unfold coreSt at h
  simp only [Prod.mk.injEq] at h
  exact h

theorem Evol_of_coreSt {st st' : State} (h : coreSt st' = coreSt st) :
    Evol st st' := by
  obtain ⟨h1, h2, h3, h4, h5, h6, h7, h8, h9⟩ := of_coreSt_eq h
  exact ⟨h3, h4, h5, h6, h7, h8, h9,
    fun n hn => by rw [h1]; exact hn, fun n hn => by rw [h2]; exact hn⟩

theorem StOK_of_coreSt {H MN : List String} {st st' : State}
    (h : coreSt st' = coreSt st) (hok : StOK H MN st) : StOK H MN st' := by
  obtain ⟨h1, _, h3, h4, _⟩ := of_coreSt_eq h
  exact StOK_congr h3 h1 h4 hok

theorem Evol_broken_cons (st : State) (n : String) :
    Evol st { st with broken := n :: st.broken } :=
  ⟨rfl, rfl, rfl, rfl, rfl, rfl, rfl, fun _ h => h,
   fun _ h => List.mem_cons_of_mem _ h⟩

/-- `SourceModuleIndexer.run` never diverges; on success the module is
registered under its own name with sane imports. -/
theorem runIndexer_post {H MN : List String} {st : State}
    (hok : StOK H MN st) (path name : String) (hMN : name ∈ MN) :
    PostOK H MN st (runIndexer st path name)
      (fun md st' => md.qname = name ∧ ImportsOK H md.imports ∧
        (alookup st'.module_index name).isSome) := by
  rw [runIndexer]
  cases hdisk : alookup st.disk path with
  | none => exact PostOK_thrown (Evol_refl st) hok
  | some entry =>
    cases entry with
    | parseError => exact PostOK_thrown (Evol_refl st) hok
    | facts raws classes functions =>
      have hmd : PostOK H MN st (module_discovered st name path raws)
          (fun md st₂ => md.qname = name ∧ ImportsOK H md.imports ∧
            (alookup st₂.module_index name).isSome) := by
        rw [module_discovered]
        cases hbi : buildImports raws with
        | error e => exact PostOK_thrown (Evol_refl st) hok
        | ok imps =>
          have himps : ImportsOK H imps := by
            have h3 : ImportsOK H
                (diskImports (DiskEntry.facts raws classes functions)) :=
              hok.2.2 _ (alookup_mem hdisk)
            have hdi : diskImports (DiskEntry.facts raws classes functions)
                = imps := by
              show (match buildImports raws with
                | Except.ok imps => imps
                | Except.error _ => []) = imps
              rw [hbi]
            rwa [hdi] at h3
          refine PostOK_ok ?_ ?_ ?_
          · exact ⟨rfl, rfl, rfl, rfl, rfl, rfl, rfl,
              fun n hn => alookup_ainsert_isSome _ _ _ _ hn, fun _ h => h⟩
          · obtain ⟨o1, o2, o3⟩ := hok
            refine ⟨o1, ?_, o3⟩
            intro pr hpr
            rcases mem_ainsert hpr with rfl | hpr
            · exact ⟨hMN, rfl, himps⟩
            · exact o2 _ hpr
          · refine ⟨rfl, himps, ?_⟩
            show (alookup (ainsert st.module_index name _) name).isSome
            rw [alookup_ainsert_self]
            rfl
      refine PostOK_bind hmd ?_
      intro md st₂ _ hEv hok₂ hq
      have hcore : coreSt (List.foldl
          (fun s rf => register_function s
            (function_discovered s.py2 (name ++ "." ++ rf.relQname) rf (some md)))
          (List.foldl (fun s rc => register_class s
            (class_discovered s.py2 (name ++ "." ++ rc.relQname) rc.bases
              rc.attributes (some md))) st₂ classes) functions) = coreSt st₂ := by
        rw [coreSt_foldl (fun s b => coreSt_register_function s _) functions,
          coreSt_foldl (fun s b => coreSt_register_class s _) classes]
      refine PostOK_ok (Evol_of_coreSt hcore) (StOK_of_coreSt hcore hok₂) ?_
      refine ⟨hq.1, hq.2.1, ?_⟩
      rw [(of_coreSt_eq hcore).1]
      exact hq.2.2

/-- The follow-imports loop never diverges when the lazy loader at the
current fuel is known total below the fuel bound. -/
theorem followLoop_post (H MN : List String) (fuel : Nat)
    (ih : ∀ st name, StOK H MN st → imeasure st < fuel →
      PostOK H MN st (index_module fuel st name)
        (fun mo _ => ∀ m ∈ mo.toList, m.qname ∈ MN ∧ ImportsOK H m.imports)) :
    ∀ (imps : List Import) (st : State), StOK H MN st → imeasure st < fuel →
      PostOK H MN st (followLoop (index_module fuel) st imps)
        (fun _ _ => True) := by
  intro imps
  induction imps with
  | nil =>
    intro st hok _
    exact PostOK_ok (Evol_refl st) hok trivial
  | cons imp rest ihr =>
    intro st hok hlt
    rw [followLoop]
    refine PostOK_seq ?_ ?_
    · -- the per-import step
      by_cases hc : (¬ imp.import_from = true ∨ imp.star_import = true)
      · rw [if_pos hc]
        refine PostOK_bind (ih st imp.imported_name hok hlt) ?_
        intro _ st' _ _ hok' _
        exact PostOK_ok (Evol_refl st') hok' trivial
      · rw [if_neg hc]
        refine PostOK_bind (ih st imp.imported_name hok hlt) ?_
        intro _ st' _ hEv hok' _
        cases ht : qname_tail imp.imported_name with
        | none => exact PostOK_thrown (Evol_refl st') hok'
        | some t =>
          have hlt' : imeasure st' < fuel := by
            have := imeasure_le_of_Evol hEv
            omega
          refine PostOK_bind (ih st' t hok' hlt') ?_
          intro _ st'' _ _ hok'' _
          exact PostOK_ok (Evol_refl st'') hok'' trivial
    · intro _ st' _ hEv hok'
      have hlt' : imeasure st' < fuel := by
        have := imeasure_le_of_Evol hEv
        omega
      exact ihr st' hok' hlt'

/-- `index_module` terminates whenever the fuel exceeds the number of
unindexed known paths, and only evolves the state monotonically. -/
theorem index_module_post (H MN : List String) :
    ∀ (fuel : Nat) (st : State) (name : String), StOK H MN st →
      imeasure st < fuel →
      PostOK H MN st (index_module fuel st name)
        (fun mo _ => ∀ m ∈ mo.toList, m.qname ∈ MN ∧ ImportsOK H m.imports) := by
  intro fuel
  induction fuel with
  | zero =>
    intro st name _ h
    exact absurd h (by omega)
  | succ fuel ih =>
    intro st name hok hlt
    rw [index_module]
    by_cases hbr : name ∈ st.broken
    · rw [if_pos hbr]
      exact PostOK_ok (Evol_refl st) hok (by simp)
    · rw [if_neg hbr]
      cases hpath : alookup st.pathOf name with
      | none =>
        exact PostOK_ok (Evol_broken_cons st name)
          (StOK_congr rfl rfl rfl hok) (by simp)
      | some path =>
        cases hidx : alookup st.module_index name with
        | some loaded =>
          refine PostOK_ok (Evol_refl st) hok ?_
          intro m hm
          have hmeq : m = loaded := by simpa using hm
          subst hmeq
          obtain ⟨h1, h2, h3⟩ := hok.2.1 _ (alookup_mem hidx)
          exact ⟨h2 ▸ h1, h3⟩
        | none =>
          change PostOK H MN st (if is_excluded st path = true then _ else _) _
          by_cases hex : is_excluded st path = true
          · rw [if_pos hex]
            exact PostOK_ok (Evol_refl st) hok (by simp)
          · rw [if_neg hex]
            have hMN : name ∈ MN := hok.1 _ (alookup_mem hpath)
            have hri := runIndexer_post hok path name hMN
            cases hrr : runIndexer st path name with
            | div => exact absurd hrr hri.1
            | thrown e st' =>
              obtain ⟨hEv, hok'⟩ := hri.2.1 _ _ hrr
              cases e with
              | syntaxError =>
                exact PostOK_ok (Evol_trans hEv (Evol_broken_cons st' path))
                  (StOK_congr rfl rfl rfl hok') (by simp)
              | valueError => exact PostOK_thrown hEv hok'
              | exception => exact PostOK_thrown hEv hok'
            | ok md st' =>
              obtain ⟨hEv, hok', hq⟩ := hri.2.2 _ _ hrr
              have hQ : ∀ m ∈ (some md).toList,
                  m.qname ∈ MN ∧ ImportsOK H m.imports := by
                intro m hm
                have hmeq : m = md := by simpa using hm
                subst hmeq
                exact ⟨hq.1 ▸ hMN, hq.2.1⟩
              change PostOK H MN st
                (if st'.follow_imports = true then _ else _) _
              by_cases hfi : st'.follow_imports = true
              · rw [if_pos hfi]
                have hlt' : imeasure st' < fuel := by
                  have := imeasure_lt_of_register hEv (alookup_mem hpath)
                    hidx hbr hq.2.2
                  omega
                refine PostOK_weaken hEv
                  (PostOK_bind (followLoop_post H MN fuel ih md.imports st'
                    hok' hlt') ?_)
                intro _ st'' _ _ hok'' _
                exact PostOK_ok (Evol_refl st'') hok'' hQ
              · rw [if_neg hfi]
                exact PostOK_ok hEv hok' hQ

/-! ### Termination of the import loop of `resolve_name` -/

theorem imports_name_elim {imp : Import} {name : String}
    (h : imp.imports_name name = true) :
    imp.star_import = false ∧
    (∀ l, imp.local_name = some l → qname_qualified_by name l = true) := by
  unfold Import.imports_name at h
  by_cases hs : imp.star_import = true
  · rw [if_pos hs] at h
    cases h
  · refine ⟨by revert hs; cases imp.star_import <;> simp, ?_⟩
    rw [if_neg hs] at h
    intro l hl
    rw [hl] at h
    exact h

theorem ImportOK_head {H : List String} {imp : Import} (hio : ImportOK H imp)
    (hf : imp.import_from = true) (hs : imp.star_import = false) :
    ∃ hh, qname_head imp.imported_name = some hh ∧ hh ∈ H := by
  rcases hio.2 with h | h | h
  · rw [hf] at h
    cases h
  · rw [hs] at h
    cases h
  · cases hh : qname_head imp.imported_name with
    | none => exact absurd hh h.1
    | some x =>
      refine ⟨x, rfl, ?_⟩
      have h2 := h.2
      rw [hh] at h2
      exact h2

theorem resolveImportsLoop_post (P0 H MN : List String) (Hok : HeadOK H)
    (fuel : Nat) (kind : String)
    (hrn : ∀ (st : State) (nm : String) (mo : Option ModuleDef),
      StOK H MN st → InNB P0 H nm → ModArgOK H MN mo →
      kcount P0 H MN kind st + imeasure st < fuel →
      PostOK H MN st (resolve_name fuel st nm mo kind) (fun _ _ => True)) :
    ∀ (imps : List Import) (st : State) (name : String) (module : ModuleDef),
      StOK H MN st → InNB P0 H name → ImportsOK H imps →
      kcount P0 H MN kind st + imeasure st < fuel →
      PostOK H MN st
        (resolveImportsLoop (resolve_name fuel) (index_module fuel)
          st name module kind imps) (fun _ _ => True) := by
  intro imps
  induction imps with
  | nil =>
    intro st name module hok _ _ _
    exact PostOK_ok (Evol_refl st) hok trivial
  | cons imp rest ihr =>
    intro st name module hok hname himps hm
    have hioimp : ImportOK H imp := himps imp (List.mem_cons_self _ _)
    have himps' : ImportsOK H rest :=
      fun i hi => himps i (List.mem_cons_of_mem _ hi)
    have hmeas : ∀ s : State, Evol st s →
        kcount P0 H MN kind s + imeasure s < fuel := by
      intro s hEv
      have h1 : kcount P0 H MN kind s = kcount P0 H MN kind st :=
        kcount_le_of_Evol hEv
      have h2 := imeasure_le_of_Evol hEv
      omega
    have hmeasI : ∀ s : State, Evol st s → imeasure s < fuel := by
      intro s hEv
      have := hmeas s hEv
      omega
    simp only [resolveImportsLoop]
    by_cases hin : imp.imports_name name = true
    · rw [if_pos hin]
      obtain ⟨hstar, hqual⟩ := imports_name_elim hin
      cases hln : imp.local_name with
      | none => exact PostOK_thrown (Evol_refl st) hok
      | some locName =>
        simp only []
        have hlq : qname_qualified_by name locName = true := hqual _ hln
        have hlne : locName ≠ "" := fun he => hioimp.1 (by rw [hln, he])
        cases hki : kind_index st kind
            (replaceFirst (qname_merge locName name) locName
              imp.imported_name) with
        | some df =>
          -- `check_loaded(qname)` hit
          exact PostOK_ok (Evol_refl st) hok trivial
        | none =>
          simp only []
          by_cases hif : ¬ imp.import_from = true
          · rw [if_pos hif]
            -- plain `import some.module [as alias]`
            refine PostOK_bind (index_module_post H MN fuel st
              imp.imported_name hok (hmeasI st (Evol_refl st))) ?_
            intro ml st₁ _ hEv hok₁ hq
            cases ml with
            | none =>
              exact ihr st₁ name module hok₁ hname himps' (hmeas st₁ hEv)
            | some ml =>
              simp only []
              by_cases hne : ml.qname = module.qname
              · rw [if_neg (fun hc => hc hne)]
                exact ihr st₁ name module hok₁ hname himps' (hmeas st₁ hEv)
              · rw [if_pos hne]
                refine PostOK_orElse
                  (hrn st₁ (qname_drop name locName) (some ml) hok₁
                    (InNB_of_InT (InNB_qname_drop Hok hname hlq hlne)) hq
                    (hmeas st₁ hEv)) ?_
                intro st₂ _ hEv₂ hok₂
                exact ihr st₂ name module hok₂ hname himps'
                  (hmeas st₂ (Evol_trans hEv hEv₂))
          · rw [if_neg hif]
            -- `from some.module import Base [as alias]`
            have hfrom : imp.import_from = true := by
              revert hif
              cases imp.import_from <;> simp
            obtain ⟨hh, hhead, hhH⟩ := ImportOK_head hioimp hfrom hstar
            cases hmt : qname_tail imp.imported_name with
            | none => exact PostOK_thrown (Evol_refl st) hok
            | some module_name =>
              simp only []
              -- the common `afterFirst` continuation
              have hAfter : ∀ s : State, Evol st s → StOK H MN s →
                  PostOK H MN s
                    ((index_module fuel s imp.imported_name).bind
                      fun ml₂ st₃ =>
                        match ml₂ with
                        | some ml₂ =>
                          if ml₂.qname ≠ module.qname then
                            Res.orElse (resolve_name fuel st₃
                                (qname_drop name locName) (some ml₂) kind)
                              (fun st₄ => resolveImportsLoop
                                (resolve_name fuel) (index_module fuel) st₄
                                name module kind rest)
                          else resolveImportsLoop (resolve_name fuel)
                            (index_module fuel) st₃ name module kind rest
                        | none => resolveImportsLoop (resolve_name fuel)
                            (index_module fuel) st₃ name module kind rest)
                    (fun _ _ => True) := by
                intro s hEvs hoks
                refine PostOK_bind (index_module_post H MN fuel s
                  imp.imported_name hoks (hmeasI s hEvs)) ?_
                intro ml₂ st₃ _ hEv₃ hok₃ hq₃
                cases ml₂ with
                | none =>
                  exact ihr st₃ name module hok₃ hname himps'
                    (hmeas st₃ (Evol_trans hEvs hEv₃))
                | some m₂ =>
                  simp only []
                  by_cases hne₂ : m₂.qname = module.qname
                  · rw [if_neg (fun hc => hc hne₂)]
                    exact ihr st₃ name module hok₃ hname himps'
                      (hmeas st₃ (Evol_trans hEvs hEv₃))
                  · rw [if_pos hne₂]
                    refine PostOK_orElse
                      (hrn st₃ (qname_drop name locName) (some m₂) hok₃
                        (InNB_of_InT (InNB_qname_drop Hok hname hlq hlne)) hq₃
                        (hmeas st₃ (Evol_trans hEvs hEv₃))) ?_
                    intro st₄ _ hEv₄ hok₄
                    exact ihr st₄ name module hok₄ hname himps'
                      (hmeas st₄ (Evol_trans (Evol_trans hEvs hEv₃) hEv₄))
              -- first interpretation: `from module import Name`
              refine PostOK_bind (index_module_post H MN fuel st module_name
                hok (hmeasI st (Evol_refl st))) ?_
              intro ml st₁ _ hEv hok₁ hq
              cases ml with
              | none => exact hAfter st₁ hEv hok₁
              | some ml =>
                simp only []
                by_cases hne : ml.qname = module.qname
                · rw [if_neg (fun hc => hc hne)]
                  exact hAfter st₁ hEv hok₁
                · rw [if_pos hne]
                  refine PostOK_orElse
                    (hrn st₁ (qname_drop (replaceFirst
                        (qname_merge locName name) locName imp.imported_name)
                        module_name) (some ml) hok₁
                      (InNB_branch1 Hok hname hlq hlne hmt hhead hhH) hq
                      (hmeas st₁ hEv)) ?_
                  intro st₂ _ hEv₂ hok₂
                  exact hAfter st₂ (Evol_trans hEv hEv₂) hok₂
    · rw [if_neg hin]
      by_cases hstar2 : imp.star_import = true
      · rw [if_pos hstar2]
        refine PostOK_bind (index_module_post H MN fuel st imp.imported_name
          hok (hmeasI st (Evol_refl st))) ?_
        intro ml st₁ _ hEv hok₁ hq
        cases ml with
        | none => exact ihr st₁ name module hok₁ hname himps' (hmeas st₁ hEv)
        | some ml =>
          simp only []
          by_cases hne : ml.qname = module.qname
          · rw [if_neg (fun hc => hc hne)]
            exact ihr st₁ name module hok₁ hname himps' (hmeas st₁ hEv)
          · rw [if_pos hne]
            refine PostOK_orElse
              (hrn st₁ name (some ml) hok₁ hname hq (hmeas st₁ hEv)) ?_
            intro st₂ _ hEv₂ hok₂
            exact ihr st₂ name module hok₂ hname himps'
              (hmeas st₂ (Evol_trans hEv hEv₂))
      · rw [if_neg hstar2]
        exact ihr st name module hok hname himps' hm

theorem resolveBody_post (P0 H MN : List String) (Hok : HeadOK H)
    (fuel : Nat) (kind : String)
    (hrn : ∀ (st : State) (nm : String) (mo : Option ModuleDef),
      StOK H MN st → InNB P0 H nm → ModArgOK H MN mo →
      kcount P0 H MN kind st + imeasure st < fuel →
      PostOK H MN st (resolve_name fuel st nm mo kind) (fun _ _ => True)) :
    ∀ (st : State) (name : String) (mo : Option ModuleDef),
      StOK H MN st → InNB P0 H name → ModArgOK H MN mo →
      kcount P0 H MN kind st + imeasure st < fuel →
      PostOK H MN st
        (resolveBody (resolve_name fuel) (index_module fuel) st name mo kind)
        (fun _ _ => True) := by
  intro st name mo hok hname hmo hm
  rw [resolveBody.eq_def]
  by_cases hkind : (kind ≠ "class" ∧ kind ≠ "function" ∧ kind ≠ "module")
  · rw [if_pos hkind]
    exact PostOK_thrown (Evol_refl st) hok
  · rw [if_neg hkind]
    cases h1 : kind_index st kind name with
    | some df => exact PostOK_ok (Evol_refl st) hok trivial
    | none =>
      simp only []
      cases h2 : kind_index st kind (BUILTINS_NAME st.py2 ++ "." ++ name) with
      | some df => exact PostOK_ok (Evol_refl st) hok trivial
      | none =>
        simp only []
        cases mo with
        | none => exact PostOK_ok (Evol_refl st) hok trivial
        | some m =>
          simp only []
          cases h3 : kind_index st kind (m.qname ++ "." ++ name) with
          | some df => exact PostOK_ok (Evol_refl st) hok trivial
          | none =>
            exact resolveImportsLoop_post P0 H MN Hok fuel kind hrn m.imports
              st name m hok hname (hmo m (by simp)).2 hm

theorem filter_ne_cons_self {α : Type} [DecidableEq α] {a : α} {l : List α}
    (h : a ∉ l) : (a :: l).filter (· ≠ a) = l := by
  have h1 : (a :: l).filter (· ≠ a) = l.filter (· ≠ a) := by
    rw [List.filter_cons]
    simp
  rw [h1]
  refine List.filter_eq_self.2 ?_
  intro b hb
  simp only [ne_eq, decide_eq_true_eq]
  exact fun he => h (he ▸ hb)

/-- `resolve_name` never diverges once the fuel exceeds the number of
not-yet-in-flight universe keys plus the number of unindexed paths. -/
theorem resolve_name_post (P0 H MN : List String) (Hok : HeadOK H) :
    ∀ (fuel : Nat) (kind : String) (st : State) (name : String)
      (mo : Option ModuleDef),
      StOK H MN st → InNB P0 H name → ModArgOK H MN mo →
      kcount P0 H MN kind st + imeasure st < fuel →
      PostOK H MN st (resolve_name fuel st name mo kind)
        (fun _ _ => True) := by
  intro fuel
  induction fuel with
  | zero =>
    intro kind st name mo _ _ _ h
    exact absurd h (by omega)
  | succ fuel ih =>
    intro kind st name mo hok hname hmo hm
    simp only [resolve_name]
    cases hmem : alookup st.resolve_memo
        ⟨name, mo.map (fun m => m.qname), kind⟩ with
    | some cached => exact PostOK_ok (Evol_refl st) hok trivial
    | none =>
      simp only []
      by_cases hinf : (⟨name, mo.map (fun m => m.qname), kind⟩ : ResolveKey)
          ∈ st.resolve_inflight
      · rw [if_pos hinf]
        refine PostOK_ok ?_ (StOK_congr rfl rfl rfl hok) trivial
        exact ⟨rfl, rfl, rfl, rfl, rfl, rfl, rfl, fun _ h => h, fun _ h => h⟩
      · rw [if_neg hinf]
        have hkey : (⟨name, mo.map (fun m => m.qname), kind⟩ : ResolveKey)
            ∈ keyList P0 H MN kind := by
          refine List.mem_flatMap.2 ⟨name, mem_nbList_of_InNB hname, ?_⟩
          refine List.mem_map.2 ⟨mo.map (fun m => m.qname), ?_, rfl⟩
          cases mo with
          | none => exact List.mem_cons_self _ _
          | some m =>
            exact List.mem_cons_of_mem _
              (List.mem_map.2 ⟨m.qname, (hmo m (by simp)).1, rfl⟩)
        have hok₁ : StOK H MN { st with resolve_inflight :=
            ⟨name, mo.map (fun m => m.qname), kind⟩ :: st.resolve_inflight } :=
          StOK_congr rfl rfl rfl hok
        have hm₁ : kcount P0 H MN kind { st with resolve_inflight :=
              ⟨name, mo.map (fun m => m.qname), kind⟩ :: st.resolve_inflight }
            + imeasure { st with resolve_inflight :=
              ⟨name, mo.map (fun m => m.qname), kind⟩ :: st.resolve_inflight }
            < fuel := by
          have hlt := kcount_push hkey hinf
          have him : imeasure { st with resolve_inflight :=
              ⟨name, mo.map (fun m => m.qname), kind⟩ :: st.resolve_inflight }
              = imeasure st := rfl
          omega
        have hbody := resolveBody_post P0 H MN Hok fuel kind
          (fun s nm mo' => ih kind s nm mo')
          { st with resolve_inflight :=
            ⟨name, mo.map (fun m => m.qname), kind⟩ :: st.resolve_inflight }
          name mo hok hname hmo hm₁
        cases hb : resolveBody (resolve_name fuel) (index_module fuel)
            { st with resolve_inflight :=
              ⟨name, mo.map (fun m => m.qname), kind⟩ :: st.resolve_inflight }
            name mo kind with
        | div => exact absurd hb hbody.1
        | thrown e st₂ =>
          obtain ⟨hEv, hok₂⟩ := hbody.2.1 _ _ hb
          refine PostOK_thrown ?_ (StOK_congr rfl rfl rfl hok₂)
          refine ⟨hEv.1, hEv.2.1, ?_, hEv.2.2.2.1, hEv.2.2.2.2.1,
            hEv.2.2.2.2.2.1, hEv.2.2.2.2.2.2.1,
            fun n hn => hEv.2.2.2.2.2.2.2.1 n hn,
            fun n hn => hEv.2.2.2.2.2.2.2.2 n hn⟩
          show st₂.resolve_inflight.filter
            (· ≠ (⟨name, mo.map (fun m => m.qname), kind⟩ : ResolveKey))
            = st.resolve_inflight
          rw [hEv.2.2.1]
          exact filter_ne_cons_self hinf
        | ok r st₂ =>
          obtain ⟨hEv, hok₂, _⟩ := hbody.2.2 _ _ hb
          refine PostOK_ok ?_ (StOK_congr rfl rfl rfl hok₂) trivial
          refine ⟨hEv.1, hEv.2.1, ?_, hEv.2.2.2.1, hEv.2.2.2.2.1,
            hEv.2.2.2.2.2.1, hEv.2.2.2.2.2.2.1,
            fun n hn => hEv.2.2.2.2.2.2.2.1 n hn,
            fun n hn => hEv.2.2.2.2.2.2.2.2 n hn⟩
          show st₂.resolve_inflight.filter
            (· ≠ (⟨name, mo.map (fun m => m.qname), kind⟩ : ResolveKey))
            = st.resolve_inflight
          rw [hEv.2.2.1]
          exact filter_ne_cons_self hinf

instance (H : List String) (imp : Import) : Decidable (ImportOK H imp) :=
  inferInstanceAs (Decidable (_ ∧ _))

instance (H : List String) (l : List Import) : Decidable (ImportsOK H l) :=
  inferInstanceAs (Decidable (∀ imp ∈ l, ImportOK H imp))

instance (H : List String) : Decidable (HeadOK H) :=
  inferInstanceAs (Decidable (∀ h ∈ H, h ≠ "" ∧ ('.' : Char) ∉ h.data))

instance (H MN : List String) (st : State) : Decidable (StOK H MN st) :=
  inferInstanceAs (Decidable (_ ∧ _ ∧ _))

instance (H MN : List String) (mo : Option ModuleDef) :
    Decidable (ModArgOK H MN mo) :=
  inferInstanceAs
    (Decidable (∀ m ∈ mo.toList, m.qname ∈ MN ∧ ImportsOK H m.imports))

/-- A two-module cyclic star-import graph (`a` star-imports `b`, `b`
star-imports `a`), fully indexed. -/
def c3ModA : ModuleDef := ⟨"a", "pa", [⟨"b", none, true, true⟩]⟩

def c3ModB : ModuleDef := ⟨"b", "pb", [⟨"a", none, true, true⟩]⟩

def c3State : State :=
  { module_index := [("a", c3ModA), ("b", c3ModB)]
    pathOf := [("a", "pa"), ("b", "pb")] }

/-- `c3State` with the key `("X", module a, class)` currently in flight. -/
def c3Guard : State :=
  { c3State with resolve_inflight := [⟨"X", some "a", "class"⟩] }

/-- The state a fresh analyzer reaches after `resolve_name('x', None)`:
the (negative) final result is memoized. -/
def c3Run : State :=
  { resolve_memo := [(⟨"x", none, "class"⟩, none)] }

/-- C3: on every well-formed analyzer state — including cyclic import
graphs — `resolve_name` terminates (conjunct 1, at some fuel the embedded
call does not diverge); while a `(name, module, kind)` key is being
resolved, a re-entrant call with the identical key returns the unresolved
`None` immediately without recursing (conjunct 2, one-step equation); and
every completed call leaves its own final result in the memo under its
key, so the re-entrant `None` transiently written by the guard is
overwritten and never the permanently cached value (conjunct 3).  The
`recursion_guard` decorator itself is modelled from the spec, its
definition not being under `src/`. -/
theorem claim_C3 :
    (∀ (H MN : List String) (st : State) (name : String)
        (mo : Option ModuleDef) (kind : String),
      HeadOK H → StOK H MN st → ModArgOK H MN mo →
      ∃ fuel, resolve_name fuel st name mo kind ≠ .div) ∧
    (∀ (fuel : Nat) (st : State) (name : String) (mo : Option ModuleDef)
        (kind : String),
      alookup st.resolve_memo ⟨name, mo.map (fun m => m.qname), kind⟩ = none →
      (⟨name, mo.map (fun m => m.qname), kind⟩ : ResolveKey)
        ∈ st.resolve_inflight →
      resolve_name (fuel + 1) st name mo kind =
        .ok none { st with resolve_memo := (ainsert st.resolve_memo
          ⟨name, mo.map (fun m => m.qname), kind⟩ none) }) ∧
    (∀ (fuel : Nat) (st : State) (name : String) (mo : Option ModuleDef)
        (kind : String) (r : Option PyDef) (st' : State),
      resolve_name fuel st name mo kind = .ok r st' →
      alookup st'.resolve_memo ⟨name, mo.map (fun m => m.qname), kind⟩
        = some r) := by
  refine ⟨?_, ?_, ?_⟩
  · -- termination
    intro H MN st name mo kind hH hok hmo
    refine ⟨kcount (splitDots name) H MN kind st + imeasure st + 1, ?_⟩
    exact (resolve_name_post (splitDots name) H MN hH _ kind st name mo hok
      (InNB_of_InT (InT_init name)) hmo (by omega)).1
  · -- re-entrant guard hit
    intro fuel st name mo kind hmem hinf
    simp only [resolve_name]
    rw [hmem]
    simp only []
    rw [if_pos hinf]
  · -- the completed call's own result is what the memo holds
    intro fuel st name mo kind r st' heq
    cases fuel with
    | zero =>
      simp only [resolve_name] at heq
      cases heq
    | succ fuel =>
      simp only [resolve_name] at heq
      cases hmem : alookup st.resolve_memo
          ⟨name, mo.map (fun m => m.qname), kind⟩ with
      | some cached =>
        rw [hmem] at heq
        simp only [] at heq
        cases heq
        exact hmem
      | none =>
        rw [hmem] at heq
        simp only [] at heq
        by_cases hinf : (⟨name, mo.map (fun m => m.qname), kind⟩ : ResolveKey)
            ∈ st.resolve_inflight
        · rw [if_pos hinf] at heq
          cases heq
          exact alookup_ainsert_self _ _ _
        · rw [if_neg hinf] at heq
          cases hb : resolveBody (resolve_name fuel) (index_module fuel)
              { st with resolve_inflight :=
                ⟨name, mo.map (fun m => m.qname), kind⟩
                  :: st.resolve_inflight }
              name mo kind with
          | div =>
            rw [hb] at heq
            cases heq
          | thrown e st₂ =>
            rw [hb] at heq
            cases heq
          | ok r₂ st₂ =>
            rw [hb] at heq
            cases heq
            exact alookup_ainsert_self _ _ _

/-- Concrete witness: `c3State` is a well-formed state with a genuine
genuine import cycle on which resolution terminates; the guard fires on
`c3Guard`; a completed fresh run memoizes its own result. -/
theorem claim_C3_witness :
    (∃ fuel, resolve_name fuel c3State "X" (some c3ModA) "class" ≠ .div) ∧
    resolve_name 1 c3Guard "X" (some c3ModA) "class" =
      .ok none { c3Guard with resolve_memo := (ainsert c3Guard.resolve_memo
        ⟨"X", (some c3ModA).map (fun m => m.qname), "class"⟩ none) } ∧
    alookup c3Run.resolve_memo
      ⟨"x", Option.map (fun m => m.qname) (none : Option ModuleDef), "class"⟩
      = some none :=
  ⟨claim_C3.1 [] ["a", "b"] c3State "X" (some c3ModA) "class"
      (by decide) (by decide) (by decide),
   claim_C3.2.1 0 c3Guard "X" (some c3ModA) "class" (by decide) (by decide),
   claim_C3.2.2 1 {} "x" none "class" none c3Run (by decide)⟩

end GreenType
